import Mathlib

/-
Verification development for the NeuralDeck extraction-generation pipeline
(src/document_processor.py and src/pipeline_utils.py).

Texts are modelled as lists of characters (`Str`).  Python string
operations (strip, lower, splitlines, the sentence-splitting regex,
substring tests) are embedded as executable functions below.  Unicode
caveats of the embedding: `pyLower` lowers ASCII letters only, and
`pyIsSpace` / `isLineBreakChar` cover the ASCII whitespace range plus the
common Unicode line/space separators; the more exotic Unicode space
characters recognised by Python are omitted.
-/

namespace NeuralDeck

abbrev Str := List Char

def strOf (s : String) : Str := s.data

/-- The opening-brace character, written by code point. -/
def lbrace : Char := Char.ofNat 123

/-- The closing-brace character, written by code point. -/
def rbrace : Char := Char.ofNat 125

/-- Python whitespace test (`str.isspace` / regex whitespace class),
restricted as described in the file header. -/
def pyIsSpace (c : Char) : Bool :=
  c = ' ' || c = '\t' || c = '\n' || c = '\r' || c = '\x0b' || c = '\x0c' ||
  c = '\x1c' || c = '\x1d' || c = '\x1e' || c = '\x1f' ||
  c = '\u0085' || c = ' ' || c = ' ' || c = ' '

/-- Characters on which `str.splitlines` breaks (besides `\r` and `\r\n`,
handled separately). -/
def isLineBreakChar (c : Char) : Bool :=
  c = '\n' || c = '\x0b' || c = '\x0c' ||
  c = '\x1c' || c = '\x1d' || c = '\x1e' ||
  c = '\u0085' || c = ' ' || c = ' '

/-- Remove every whitespace character (used to compare texts up to
whitespace normalisation). -/
def eraseWs (l : Str) : Str := l.filter (fun c => !pyIsSpace c)

/-- Python `str.strip()`. -/
def pyStrip (l : Str) : Str :=
  ((l.dropWhile pyIsSpace).reverse.dropWhile pyIsSpace).reverse

/-- Python `str.lower()` on ASCII letters. -/
def pyLowerChar (c : Char) : Char :=
  if 'A' ≤ c ∧ c ≤ 'Z' then Char.ofNat (c.toNat + 32) else c

def pyLower (l : Str) : Str := l.map pyLowerChar

/-- Python `needle in hay` substring test. -/
def strContains (hay needle : Str) : Bool :=
  if needle.isPrefixOf hay then true
  else
    match hay with
    | [] => false
    | _ :: rest => strContains rest needle

def pyStartsWith (l p : Str) : Bool := p.isPrefixOf l

def pyEndsWith (l p : Str) : Bool := p.isSuffixOf l

/-! ### `str.splitlines(keepends=True)` -/

def pySplitlinesGo (accRev : Str) : List Char → List Str
  | [] => if accRev = [] then [] else [accRev.reverse]
  | [c] =>
    if c = '\r' then [accRev.reverse ++ ['\r']]
    else if isLineBreakChar c then (accRev.reverse ++ [c]) :: pySplitlinesGo [] []
    else pySplitlinesGo (c :: accRev) []
  | c :: c2 :: rest2 =>
    if c = '\r' then
      if c2 = '\n' then
        (accRev.reverse ++ ['\r', '\n']) :: pySplitlinesGo [] rest2
      else
        (accRev.reverse ++ ['\r']) :: pySplitlinesGo [] (c2 :: rest2)
    else if isLineBreakChar c then
      (accRev.reverse ++ [c]) :: pySplitlinesGo [] (c2 :: rest2)
    else
      pySplitlinesGo (c :: accRev) (c2 :: rest2)

def pySplitlines (l : Str) : List Str := pySplitlinesGo [] l

/-! ### The sentence-splitting regex

`re.split(r'(?<=[.!?])\s+', para)`: split points are the maximal
whitespace runs immediately preceded by `.`, `!` or `?`.  `sentGo`
scans inside a piece (tracking the previous character for the
lookbehind); `sentSep` consumes a separator run. -/

def isSentEnd (c : Char) : Bool := c = '.' || c = '!' || c = '?'

mutual

def sentGo (prev : Char) (accRev : Str) : List Char → List Str
  | [] => [accRev.reverse]
  | c :: rest =>
    if pyIsSpace c && isSentEnd prev then accRev.reverse :: sentSep rest
    else sentGo c (c :: accRev) rest

def sentSep : List Char → List Str
  | [] => [[]]
  | c :: rest => if pyIsSpace c then sentSep rest else sentGo c [c] rest

end

def pySentSplit (l : Str) : List Str := sentGo ' ' [] l

/-! ### smart_chunk_text (document_processor.py lines 197-276) -/

/-- The loop `for i, sent in enumerate(sentences): if i < len(sentences)-1:
sent += " "` — a single space is appended to every piece but the last. -/
def withSpacing : List Str → List Str
  | [] => []
  | [s] => [s]
  | s :: s2 :: rest => (s ++ [' ']) :: withSpacing (s2 :: rest)

/-- The hard-split loop `while sent: part = sent[:max_chars]; ...`.
The fuel argument (stolen from the input length) only bounds the
recursion; for `max_chars ≥ 1` each step consumes at least one
character, so `l.length` steps always suffice. -/
def hardSplitAux (B : Nat) : Nat → List Char → List (List Char)
  | 0, _ => []
  | _ + 1, [] => []
  | fuel + 1, c :: rest => ((c :: rest).take B) :: hardSplitAux B fuel ((c :: rest).drop B)

def hardSplit (B : Nat) (l : Str) : List Str := hardSplitAux B l.length l

/-- The chunking state: the accumulated `chunks` list plus the current
chunk.  The source keeps `current_chunk` as a list of parts together
with `current_length`; since both are only observed through
`"".join(current_chunk)` and its length (which the code keeps in sync),
the state here stores the joined string directly. -/
structure CState where
  chunks : List Str
  cur : Str
  deriving Repr, DecidableEq

/-- `if current_chunk: chunks.append("".join(current_chunk)); reset`.
(All parts appended by the source are non-empty, so the list being
non-empty coincides with the joined string being non-empty.) -/
def flushIf (st : CState) : CState :=
  if st.cur = [] then st else ⟨st.chunks ++ [st.cur], []⟩

/-- Body of the sentence loop of `smart_chunk_text` (lines 233-255),
after spacing restoration, for one sentence. -/
def stepSent (B : Nat) (st : CState) (sent : Str) : CState :=
  if sent = [] then st
  else if st.cur.length + sent.length > B then
    let st1 := flushIf st
    if sent.length > B then ⟨st1.chunks ++ hardSplit B sent, st1.cur⟩
    else ⟨st1.chunks, st1.cur ++ sent⟩
  else ⟨st.chunks, st.cur ++ sent⟩

/-- Body of the paragraph loop of `smart_chunk_text` (lines 210-255). -/
def stepPara (B : Nat) (st : CState) (p : Str) : CState :=
  if st.cur.length + p.length ≤ B then ⟨st.chunks, st.cur ++ p⟩
  else
    let st1 := flushIf st
    if p.length ≤ B then ⟨st1.chunks, st1.cur ++ p⟩
    else (withSpacing (pySentSplit p)).foldl (stepSent B) st1

/-- The merge pass (lines 260-274): adjacent chunks smaller than
`min_chars` are greedily merged with their successor while staying
within budget. -/
def mergeGo (B minc : Nat) (curM : Str) : List Str → List Str
  | [] => [curM]
  | nxt :: rest =>
    if curM.length < minc ∧ curM.length + nxt.length ≤ B then
      mergeGo B minc (curM ++ nxt) rest
    else curM :: mergeGo B minc nxt rest

def mergeSmall (B minc : Nat) : List Str → List Str
  | [] => []
  | c0 :: rest => mergeGo B minc c0 rest

/-- `smart_chunk_text(text, max_chars, min_chars=100)`. -/
def smartChunkText (t : Str) (B : Nat) (minc : Nat := 100) : List Str :=
  let st := (pySplitlines t).foldl (stepPara B) ⟨[], []⟩
  mergeSmall B minc (flushIf st).chunks

def concatChunks (l : List Str) : Str := l.flatten

/-! ### JSON values and `json.JSONDecoder.raw_decode`

JSON numbers are modelled as integers; fractional or exponent notation
makes the decode of the enclosing value fail in this embedding (Python
would produce a float), and `\uXXXX` escapes are translated code point
by code point (surrogate pairs are not combined).  None of the claims
involves these cases. -/

inductive Json where
  | null
  | bool (b : Bool)
  | num (n : Int)
  | str (s : Str)
  | arr (xs : List Json)
  | obj (kvs : List (Str × Json))
  deriving Repr

mutual

def jeq : Json → Json → Bool
  | .null, .null => true
  | .bool a, .bool b => a = b
  | .num a, .num b => a = b
  | .str a, .str b => a = b
  | .arr a, .arr b => jeqList a b
  | .obj a, .obj b => jeqKVs a b
  | _, _ => false

def jeqList : List Json → List Json → Bool
  | [], [] => true
  | x :: xs, y :: ys => jeq x y && jeqList xs ys
  | _, _ => false

def jeqKVs : List (Str × Json) → List (Str × Json) → Bool
  | [], [] => true
  | (k, v) :: xs, (k2, v2) :: ys => k = k2 && jeq v v2 && jeqKVs xs ys
  | _, _ => false

end

mutual

theorem jeq_iff : ∀ a b : Json, jeq a b = true ↔ a = b
  | .null, b => by cases b <;> simp [jeq]
  | .bool x, b => by cases b <;> simp [jeq]
  | .num x, b => by cases b <;> simp [jeq]
  | .str x, b => by cases b <;> simp [jeq]
  | .arr xs, b => by
      cases b <;> simp [jeq]
      exact jeqList_iff xs _
  | .obj kvs, b => by
      cases b <;> simp [jeq]
      exact jeqKVs_iff kvs _

theorem jeqList_iff : ∀ a b : List Json, jeqList a b = true ↔ a = b
  | [], b => by cases b <;> simp [jeqList]
  | x :: xs, b => by
      cases b with
      | nil => simp [jeqList]
      | cons y ys =>
          simp only [jeqList, Bool.and_eq_true, List.cons.injEq]
          exact and_congr (jeq_iff x y) (jeqList_iff xs ys)

theorem jeqKVs_iff : ∀ a b : List (Str × Json), jeqKVs a b = true ↔ a = b
  | [], b => by cases b <;> simp [jeqKVs]
  | (k, v) :: xs, b => by
      cases b with
      | nil => simp [jeqKVs]
      | cons y ys =>
          obtain ⟨k2, v2⟩ := y
          simp only [jeqKVs, Bool.and_eq_true, List.cons.injEq, Prod.mk.injEq,
            decide_eq_true_eq]
          rw [jeq_iff v v2, jeqKVs_iff xs ys, and_assoc]

end

instance : DecidableEq Json := fun a b =>
  decidable_of_iff (jeq a b = true) (jeq_iff a b)

/-- Python-dict construction from parsed key/value pairs: a duplicate
key overwrites the value but keeps the first occurrence's position. -/
def dictInsert (d : List (Str × Json)) (k : Str) (v : Json) : List (Str × Json) :=
  match d with
  | [] => [(k, v)]
  | (k0, v0) :: rest =>
    if k0 = k then (k0, v) :: rest else (k0, v0) :: dictInsert rest k v

def mkDict (l : List (Str × Json)) : List (Str × Json) :=
  l.foldl (fun d kv => dictInsert d kv.1 kv.2) []

/-- Python `dict.get`. -/
def dictGet : List (Str × Json) → Str → Option Json
  | [], _ => none
  | (k0, v) :: rest, k => if k0 = k then some v else dictGet rest k

/-- JSON inter-token whitespace (the `json` module's set). -/
def jsonWs (c : Char) : Bool := c = ' ' || c = '\t' || c = '\n' || c = '\r'

def skipWs (l : List Char) : List Char := l.dropWhile jsonWs

def hexVal (c : Char) : Option Nat :=
  if '0' ≤ c ∧ c ≤ '9' then some (c.toNat - '0'.toNat)
  else if 'a' ≤ c ∧ c ≤ 'f' then some (c.toNat - 'a'.toNat + 10)
  else if 'A' ≤ c ∧ c ≤ 'F' then some (c.toNat - 'A'.toNat + 10)
  else none

/-- Four hex digits of a `\uXXXX` escape. -/
def hex4 : List Char → Option (Char × List Char)
  | h1 :: h2 :: h3 :: h4 :: rest3 =>
    match hexVal h1, hexVal h2, hexVal h3, hexVal h4 with
    | some a, some b, some c2, some d =>
      some (Char.ofNat (((a * 16 + b) * 16 + c2) * 16 + d), rest3)
    | _, _, _, _ => none
  | _ => none

theorem hex4_lt : ∀ (l : List Char) (c : Char) (r : List Char),
    hex4 l = some (c, r) → r.length < l.length := by
  intro l c r h
  match l with
  | h1 :: h2 :: h3 :: h4 :: rest3 =>
    simp only [hex4] at h
    split at h
    · simp only [Option.some.injEq, Prod.mk.injEq] at h
      obtain ⟨-, rfl⟩ := h
      simp only [List.length_cons]
      omega
    · simp at h
  | [] => simp [hex4] at h
  | [_] => simp [hex4] at h
  | [_, _] => simp [hex4] at h
  | [_, _, _] => simp [hex4] at h

/-- One escape sequence, after the backslash. -/
def unescape : List Char → Option (Char × List Char)
  | [] => none
  | e :: rest2 =>
    if e = '"' then some ('"', rest2)
    else if e = '\\' then some ('\\', rest2)
    else if e = '/' then some ('/', rest2)
    else if e = 'b' then some ('\x08', rest2)
    else if e = 'f' then some ('\x0c', rest2)
    else if e = 'n' then some ('\n', rest2)
    else if e = 'r' then some ('\r', rest2)
    else if e = 't' then some ('\t', rest2)
    else if e = 'u' then hex4 rest2
    else none

theorem unescape_lt : ∀ (l : List Char) (c : Char) (r : List Char),
    unescape l = some (c, r) → r.length < l.length := by
  intro l c r h
  match l with
  | [] => simp [unescape] at h
  | e :: rest2 =>
    rw [unescape] at h
    split_ifs at h
    all_goals
      try (simp only [Option.some.injEq, Prod.mk.injEq] at h
           obtain ⟨-, rfl⟩ := h
           simp only [List.length_cons]
           omega)
    · have := hex4_lt rest2 c r h
      simp only [List.length_cons]
      omega

/-- Body of a JSON string, after the opening quote; strict mode
(unescaped control characters are an error).  The fuel only bounds the
recursion: every step consumes at least one character, so callers pass
`length + 1`. -/
def parseStringBody : Nat → Str → List Char → Option (Str × List Char)
  | 0, _, _ => none
  | fuel + 1, accRev, l =>
    match l with
    | [] => none
    | c :: rest =>
      if c = '"' then some (accRev.reverse, rest)
      else if c = '\\' then
        match unescape rest with
        | some (ch, rest2) => parseStringBody fuel (ch :: accRev) rest2
        | none => none
      else if c.toNat < 32 then none
      else parseStringBody fuel (c :: accRev) rest

theorem parseStringBody_lt : ∀ (fuel : Nat) (l : List Char) (accRev s : Str)
    (r : List Char), parseStringBody fuel accRev l = some (s, r) →
    r.length < l.length := by
  intro fuel
  induction fuel with
  | zero => intro l accRev s r h; simp [parseStringBody] at h
  | succ fuel ih =>
    intro l accRev s r h
    match l with
    | [] => simp [parseStringBody] at h
    | c :: rest =>
      rw [parseStringBody] at h
      split_ifs at h with h1 h2 h3
      · simp only [Option.some.injEq, Prod.mk.injEq] at h
        obtain ⟨-, rfl⟩ := h
        simp only [List.length_cons]
        omega
      · split at h
        next ch rest2 heq =>
          have hlt := unescape_lt rest ch rest2 heq
          have := ih rest2 _ _ _ h
          simp only [List.length_cons]
          omega
        next => exact absurd h (by simp)
      all_goals
        first
          | exact absurd h (by simp)
          | (have hrest := ih rest _ _ _ h
             simp only [List.length_cons]
             omega)

def isDigitChar (c : Char) : Bool := '0' ≤ c && c ≤ '9'

def takeDigits (accRev : Str) : List Char → Str × List Char
  | [] => (accRev.reverse, [])
  | c :: rest =>
    if isDigitChar c then takeDigits (c :: accRev) rest
    else (accRev.reverse, c :: rest)

def digitsToNat (l : Str) : Nat :=
  l.foldl (fun acc c => acc * 10 + (c.toNat - '0'.toNat)) 0

/-- Does a (valid) exponent continuation start here (after `e`/`E`)? -/
def startsExpDigits : List Char → Bool
  | c :: rest =>
    if c = '+' || c = '-' then
      match rest with
      | d :: _ => isDigitChar d
      | [] => false
    else isDigitChar c
  | [] => false

/-- Does a (valid) fraction or exponent part start here?  If so the
number is a float, which this embedding does not model. -/
def startsFloatPart : List Char → Bool
  | '.' :: d :: _ => isDigitChar d
  | 'e' :: rest => startsExpDigits rest
  | 'E' :: rest => startsExpDigits rest
  | _ => false

/-- The unsigned integer part of the JSON number grammar
`0|[1-9][0-9]*`. -/
def numCore : List Char → Option (Nat × List Char)
  | [] => none
  | c :: rest =>
    if c = '0' then some (0, rest)
    else if isDigitChar c then
      let p := takeDigits [c] rest
      some (digitsToNat p.1, p.2)
    else none

/-- Strip an optional leading minus sign. -/
def signSplit : List Char → Bool × List Char
  | '-' :: rest => (true, rest)
  | l => (false, l)

/-- The integer part of the JSON number grammar
`-?(0|[1-9][0-9]*)`; fails if a float continuation follows. -/
def parseNumber (l : List Char) : Option (Int × List Char) :=
  match numCore (signSplit l).2 with
  | some (n, rest2) =>
    if startsFloatPart rest2 then none
    else some (if (signSplit l).1 then -(n : Int) else (n : Int), rest2)
  | none => none

theorem takeDigits_le : ∀ (l : List Char) (accRev : Str),
    (takeDigits accRev l).2.length ≤ l.length := by
  intro l
  induction l with
  | nil => intro accRev; simp [takeDigits]
  | cons c rest ih =>
    intro accRev
    rw [takeDigits]
    split
    · have := ih (c :: accRev)
      simp only [List.length_cons]
      omega
    · simp

theorem numCore_lt : ∀ (l : List Char) (n : Nat) (r : List Char),
    numCore l = some (n, r) → r.length < l.length := by
  intro l n r h
  match l with
  | [] => simp [numCore] at h
  | c :: rest =>
    rw [numCore] at h
    split_ifs at h
    · simp only [Option.some.injEq, Prod.mk.injEq] at h
      obtain ⟨-, rfl⟩ := h
      simp only [List.length_cons]
      omega
    · simp only [Option.some.injEq, Prod.mk.injEq] at h
      obtain ⟨-, rfl⟩ := h
      have := takeDigits_le rest [c]
      simp only [List.length_cons]
      omega

theorem signSplit_le : ∀ l : List Char, (signSplit l).2.length ≤ l.length := by
  intro l
  rw [signSplit.eq_def]
  split
  · simp
  · simp

theorem parseNumber_lt : ∀ (l : List Char) (n : Int) (r : List Char),
    parseNumber l = some (n, r) → r.length < l.length := by
  intro l n r h
  rw [parseNumber] at h
  cases hc : numCore (signSplit l).2 with
  | none => rw [hc] at h; simp at h
  | some p =>
    obtain ⟨m, rest2⟩ := p
    rw [hc] at h
    cases hfl : startsFloatPart rest2 with
    | true => simp [hfl] at h
    | false =>
      simp [hfl] at h
      obtain ⟨-, hr⟩ := h
      have h3 := congrArg List.length hr
      have h1 := numCore_lt _ m rest2 hc
      have h2 := signSplit_le l
      omega

theorem dropWhile_len_le (p : Char → Bool) : ∀ l : List Char,
    (l.dropWhile p).length ≤ l.length := by
  intro l
  induction l with
  | nil => simp
  | cons c rest ih =>
    rw [List.dropWhile]
    split
    · simp only [List.length_cons]
      omega
    · simp

theorem skipWs_le (l : List Char) : (skipWs l).length ≤ l.length :=
  dropWhile_len_le jsonWs l

/-! The recursive value parser.  The fuel argument only bounds the
recursion depth: every decrement is accompanied by the consumption of
several input characters (an object/array opener, a quoted key, a
separator), so `3 * length + 9` fuel is always sufficient for
`raw_decode`. -/

mutual

/-- `scan_once(s, idx)`: parse one JSON value starting exactly here
(no leading-whitespace skip, as in `raw_decode`). -/
def parseVal : Nat → List Char → Option (Json × List Char)
  | 0, _ => none
  | fuel + 1, l =>
    match l with
    | [] => none
    | c :: rest =>
      if c = lbrace then parseObjBody fuel (skipWs rest)
      else if c = '[' then parseArrBody fuel (skipWs rest)
      else if c = '"' then
        match parseStringBody (rest.length + 1) [] rest with
        | some (s, r) => some (Json.str s, r)
        | none => none
      else if c = 't' then
        if pyStartsWith rest (strOf "rue") then some (Json.bool true, rest.drop 3)
        else none
      else if c = 'f' then
        if pyStartsWith rest (strOf "alse") then some (Json.bool false, rest.drop 4)
        else none
      else if c = 'n' then
        if pyStartsWith rest (strOf "ull") then some (Json.null, rest.drop 3)
        else none
      else
        match parseNumber l with
        | some (n, r) => some (Json.num n, r)
        | none => none

/-- After the opening brace (whitespace already skipped). -/
def parseObjBody : Nat → List Char → Option (Json × List Char)
  | 0, _ => none
  | fuel + 1, l =>
    match l with
    | [] => none
    | c :: rest =>
      if c = rbrace then some (Json.obj [], rest)
      else if c = '"' then parseMembers fuel [] (c :: rest)
      else none

/-- The member loop of the object parser; expects the opening quote of
the next key. -/
def parseMembers : Nat → List (Str × Json) → List Char → Option (Json × List Char)
  | 0, _, _ => none
  | fuel + 1, acc, l =>
    match l with
    | [] => none
    | c :: rest =>
      if c = '"' then
        match parseStringBody (rest.length + 1) [] rest with
        | none => none
        | some (key, r1) =>
          match skipWs r1 with
          | [] => none
          | c2 :: r2 =>
            if c2 = ':' then
              match parseVal fuel (skipWs r2) with
              | none => none
              | some (v, r3) =>
                match skipWs r3 with
                | [] => none
                | c3 :: r4 =>
                  if c3 = rbrace then
                    some (Json.obj (mkDict ((key, v) :: acc).reverse), r4)
                  else if c3 = ',' then
                    match skipWs r4 with
                    | [] => none
                    | c4 :: r5 =>
                      if c4 = '"' then parseMembers fuel ((key, v) :: acc) (c4 :: r5)
                      else none
                  else none
            else none
      else none

/-- After the opening bracket (whitespace already skipped). -/
def parseArrBody : Nat → List Char → Option (Json × List Char)
  | 0, _ => none
  | fuel + 1, l =>
    match l with
    | [] => none
    | c :: rest =>
      if c = ']' then some (Json.arr [], rest)
      else parseItems fuel [] (c :: rest)

/-- The element loop of the array parser; expects the next value. -/
def parseItems : Nat → List Json → List Char → Option (Json × List Char)
  | 0, _, _ => none
  | fuel + 1, acc, l =>
    match parseVal fuel l with
    | none => none
    | some (v, r1) =>
      match skipWs r1 with
      | [] => none
      | c :: r2 =>
        if c = ']' then some (Json.arr ((v :: acc).reverse), r2)
        else if c = ',' then parseItems fuel (v :: acc) (skipWs r2)
        else none

end

/-- Every parser consumes input: a successful `parseVal` consumes at
least one character, and the body parsers never produce a remainder
longer than their input.  This is what makes the scanning loop of
`robust_parse_objects` progress (claim C7). -/
theorem parser_consume : ∀ fuel : Nat,
    (∀ l v r, parseVal fuel l = some (v, r) → r.length < l.length) ∧
    (∀ l v r, parseObjBody fuel l = some (v, r) → r.length ≤ l.length) ∧
    (∀ acc l v r, parseMembers fuel acc l = some (v, r) → r.length ≤ l.length) ∧
    (∀ l v r, parseArrBody fuel l = some (v, r) → r.length ≤ l.length) ∧
    (∀ acc l v r, parseItems fuel acc l = some (v, r) → r.length ≤ l.length) := by
  intro fuel
  induction fuel with
  | zero =>
    refine ⟨fun l v r h => by simp [parseVal] at h,
            fun l v r h => by simp [parseObjBody] at h,
            fun acc l v r h => by simp [parseMembers] at h,
            fun l v r h => by simp [parseArrBody] at h,
            fun acc l v r h => by simp [parseItems] at h⟩
  | succ fuel ih =>
    obtain ⟨ihV, ihO, ihM, ihA, ihI⟩ := ih
    refine ⟨?_, ?_, ?_, ?_, ?_⟩
    · -- parseVal
      intro l v r h
      match l with
      | [] => simp [parseVal] at h
      | c :: rest =>
        rw [parseVal] at h
        split_ifs at h
        all_goals try simp at h
        · have ha := ihO _ _ _ h
          have hb := skipWs_le rest
          simp only [List.length_cons]
          omega
        · have ha := ihA _ _ _ h
          have hb := skipWs_le rest
          simp only [List.length_cons]
          omega
        · -- string
          generalize hs : parseStringBody (rest.length + 1) [] rest = res at h
          cases res with
          | none => simp at h
          | some p =>
            obtain ⟨s, r0⟩ := p
            simp only [Option.some.injEq, Prod.mk.injEq] at h
            obtain ⟨-, hr⟩ := h
            have h3 := congrArg List.length hr
            have ha := parseStringBody_lt (rest.length + 1) rest [] s r0 hs
            simp only [List.length_cons]
            omega
        · -- true literal
          obtain ⟨-, hr⟩ := h
          have h3 := congrArg List.length hr
          simp only [List.length_drop, List.length_cons] at h3 ⊢
          omega
        · -- false literal
          obtain ⟨-, hr⟩ := h
          have h3 := congrArg List.length hr
          simp only [List.length_drop, List.length_cons] at h3 ⊢
          omega
        · -- null literal
          obtain ⟨-, hr⟩ := h
          have h3 := congrArg List.length hr
          simp only [List.length_drop, List.length_cons] at h3 ⊢
          omega
        · -- number
          generalize hn : parseNumber (c :: rest) = res at h
          cases res with
          | none => simp at h
          | some p =>
            obtain ⟨m, r0⟩ := p
            simp only [Option.some.injEq, Prod.mk.injEq] at h
            obtain ⟨-, hr⟩ := h
            have h3 := congrArg List.length hr
            have ha := parseNumber_lt (c :: rest) m r0 hn
            omega
    · -- parseObjBody
      intro l v r h
      match l with
      | [] => simp [parseObjBody] at h
      | c :: rest =>
        rw [parseObjBody] at h
        split_ifs at h
        all_goals try simp at h
        · obtain ⟨-, hr⟩ := h
          have h3 := congrArg List.length hr
          simp only [List.length_cons] at h3 ⊢
          omega
        · exact ihM _ _ _ _ h
    · -- parseMembers
      intro acc l v r h
      match l with
      | [] => simp [parseMembers] at h
      | c :: rest =>
        rw [parseMembers] at h
        split_ifs at h
        all_goals try simp at h
        generalize hs : parseStringBody (rest.length + 1) [] rest = res at h
        cases res with
        | none => simp at h
        | some p =>
          obtain ⟨key, r1⟩ := p
          simp only [Option.some.injEq, Prod.mk.injEq] at h
          have hsl := parseStringBody_lt (rest.length + 1) rest [] key r1 hs
          generalize hw : skipWs r1 = w at h
          cases w with
          | nil => simp at h
          | cons c2 r2 =>
            have hwl : r2.length < r1.length := by
              have := skipWs_le r1
              have := congrArg List.length hw
              simp only [List.length_cons] at *
              omega
            simp only [Option.some.injEq, Prod.mk.injEq] at h
            split_ifs at h
            all_goals try simp at h
            generalize hv : parseVal fuel (skipWs r2) = resv at h
            cases resv with
            | none => simp at h
            | some p2 =>
              obtain ⟨v2, r3⟩ := p2
              simp only [Option.some.injEq, Prod.mk.injEq] at h
              have hvl : r3.length < r2.length := by
                have := ihV _ _ _ hv
                have := skipWs_le r2
                omega
              generalize hw2 : skipWs r3 = w2 at h
              cases w2 with
              | nil => simp at h
              | cons c3 r4 =>
                have hwl2 : r4.length < r3.length := by
                  have := skipWs_le r3
                  have := congrArg List.length hw2
                  simp only [List.length_cons] at *
                  omega
                simp only [Option.some.injEq, Prod.mk.injEq] at h
                split_ifs at h
                all_goals try simp at h
                · obtain ⟨-, hr⟩ := h
                  have h3 := congrArg List.length hr
                  simp only [List.length_cons] at h3 ⊢
                  omega
                · generalize hw3 : skipWs r4 = w3 at h
                  cases w3 with
                  | nil => simp at h
                  | cons c4 r5 =>
                    have hwl3 : r5.length < r4.length := by
                      have := skipWs_le r4
                      have := congrArg List.length hw3
                      simp only [List.length_cons] at *
                      omega
                    simp only [Option.some.injEq, Prod.mk.injEq] at h
                    split_ifs at h
                    all_goals try simp at h
                    have := ihM _ _ _ _ h
                    simp only [List.length_cons] at *
                    omega
    · -- parseArrBody
      intro l v r h
      match l with
      | [] => simp [parseArrBody] at h
      | c :: rest =>
        rw [parseArrBody] at h
        split_ifs at h
        all_goals try simp at h
        · obtain ⟨-, hr⟩ := h
          have h3 := congrArg List.length hr
          simp only [List.length_cons] at h3 ⊢
          omega
        · exact ihI _ _ _ _ h
    · -- parseItems
      intro acc l v r h
      rw [parseItems] at h
      generalize hv : parseVal fuel l = resv at h
      cases resv with
      | none => simp at h
      | some p =>
        obtain ⟨v2, r1⟩ := p
        simp only [Option.some.injEq, Prod.mk.injEq] at h
        have hvl := ihV _ _ _ hv
        generalize hw : skipWs r1 = w at h
        cases w with
        | nil => simp at h
        | cons c2 r2 =>
          have hwl : r2.length < r1.length := by
            have := skipWs_le r1
            have := congrArg List.length hw
            simp only [List.length_cons] at *
            omega
          simp only [Option.some.injEq, Prod.mk.injEq] at h
          split_ifs at h
          all_goals try simp at h
          · obtain ⟨-, hr⟩ := h
            have h3 := congrArg List.length hr
            omega
          · have := ihI _ _ _ _ h
            have := skipWs_le r2
            omega

/-- `decoder.raw_decode(text, idx)`: parse one value at index `idx`,
returning it with the index of the first unconsumed character. -/
def rawDecode (t : Str) (s : Nat) : Option (Json × Nat) :=
  match parseVal (3 * t.length + 9) (t.drop s) with
  | some (v, rest) => some (v, t.length - rest.length)
  | none => none

/-- `text.find(c, i)` (as an `Option` instead of `-1`). -/
def findIdxFrom (c : Char) : Nat → List Char → Option Nat
  | _, [] => none
  | i, x :: xs => if x = c then some i else findIdxFrom c (i + 1) xs

def findFrom (t : Str) (c : Char) (i : Nat) : Option Nat :=
  findIdxFrom c i (t.drop i)

theorem findIdxFrom_bounds (c : Char) : ∀ (l : List Char) (i s : Nat),
    findIdxFrom c i l = some s → i ≤ s ∧ s < i + l.length := by
  intro l
  induction l with
  | nil => intro i s h; simp [findIdxFrom] at h
  | cons x xs ih =>
    intro i s h
    rw [findIdxFrom] at h
    split_ifs at h
    · simp only [Option.some.injEq] at h
      simp only [List.length_cons]
      omega
    · have := ih (i + 1) s h
      simp only [List.length_cons]
      omega

theorem findFrom_bounds (t : Str) (c : Char) (i s : Nat)
    (hi : i ≤ t.length) (h : findFrom t c i = some s) :
    i ≤ s ∧ s < t.length := by
  have := findIdxFrom_bounds c (t.drop i) i s h
  simp only [List.length_drop] at this
  omega

theorem rawDecode_progress (t : Str) (s : Nat) (v : Json) (e : Nat)
    (hs : s < t.length) (h : rawDecode t s = some (v, e)) : s < e ∧ e ≤ t.length := by
  rw [rawDecode] at h
  generalize hp : parseVal (3 * t.length + 9) (t.drop s) = res at h
  cases res with
  | none => simp at h
  | some p =>
    obtain ⟨v2, rest⟩ := p
    simp only [Option.some.injEq, Prod.mk.injEq] at h
    obtain ⟨-, he⟩ := h
    have hlt := (parser_consume (3 * t.length + 9)).1 _ _ _ hp
    simp only [List.length_drop] at hlt
    omega

/-! ### extract_cards (document_processor.py lines 303-320)

The source walks the decoded value with an explicit stack, popping the
last element and pushing children in reverse, which realises a
left-to-right depth-first traversal; the stack is modelled with its top
at the head. -/

mutual

def jsize : Json → Nat
  | .null => 1
  | .bool _ => 1
  | .num _ => 1
  | .str _ => 1
  | .arr xs => 1 + jsizeList xs
  | .obj kvs => 1 + jsizeKVs kvs

def jsizeList : List Json → Nat
  | [] => 0
  | x :: xs => jsize x + jsizeList xs

def jsizeKVs : List (Str × Json) → Nat
  | [] => 0
  | kv :: rest => jsize kv.2 + jsizeKVs rest

end

theorem jsizeList_append : ∀ a b : List Json,
    jsizeList (a ++ b) = jsizeList a + jsizeList b := by
  intro a b
  induction a with
  | nil => simp [jsizeList]
  | cons x xs ih => simp [jsizeList, ih]; omega

theorem jsizeList_mapSnd : ∀ kvs : List (Str × Json),
    jsizeList (kvs.map Prod.snd) = jsizeKVs kvs := by
  intro kvs
  induction kvs with
  | nil => simp [jsizeList, jsizeKVs]
  | cons kv rest ih => simp [jsizeList, jsizeKVs, ih]

/-- `'question' in keys_lower and 'answer' in keys_lower` (keys
lower-cased). -/
def isCardDict (kvs : List (Str × Json)) : Bool :=
  (kvs.any fun kv => decide (pyLower kv.1 = strOf "question")) &&
  (kvs.any fun kv => decide (pyLower kv.1 = strOf "answer"))

/-- The stack loop of `extract_cards`.  The fuel only bounds the
recursion; each step strictly decreases the total `jsizeList` of the
stack, so the initial size suffices. -/
def extractLoopAux : Nat → List Json → List Json
  | 0, _ => []
  | _, [] => []
  | fuel + 1, curr :: stack =>
    match curr with
    | .obj kvs =>
      if isCardDict kvs then Json.obj kvs :: extractLoopAux fuel stack
      else extractLoopAux fuel (kvs.map Prod.snd ++ stack)
    | .arr xs => extractLoopAux fuel (xs ++ stack)
    | .null => extractLoopAux fuel stack
    | .bool _ => extractLoopAux fuel stack
    | .num _ => extractLoopAux fuel stack
    | .str _ => extractLoopAux fuel stack

def extractCards (v : Json) : List Json := extractLoopAux (jsize v) [v]

/-! ### robust_parse_objects (document_processor.py lines 278-343) -/

/-- One iteration of the scanning loop (lines 322-342): find the next
opening brace, attempt a decode there; on success return the extracted
cards and the index past the decoded span, on failure the index of the
next opening brace.  `none` means the loop breaks. -/
def scanStep (t : Str) (pos : Nat) : Option (List Json × Nat) :=
  if pos < t.length then
    match findFrom t lbrace pos with
    | none => none
    | some s =>
      match rawDecode t s with
      | some (v, e) => some (extractCards v, e)
      | none =>
        match findFrom t lbrace (s + 1) with
        | none => none
        | some p => some ([], p)
  else none

/-- Claim C7's property: a yielding iteration strictly advances the
scan position (and only runs while inside the text). -/
theorem scanStep_progress (t : Str) (pos : Nat) (cards : List Json) (p2 : Nat)
    (h : scanStep t pos = some (cards, p2)) : pos < p2 ∧ pos < t.length := by
  rw [scanStep] at h
  split_ifs at h with hpos
  · refine ⟨?_, hpos⟩
    generalize hf : findFrom t lbrace pos = f1 at h
    cases f1 with
    | none => simp at h
    | some s =>
      have hsb := findFrom_bounds t lbrace pos s (by omega) hf
      simp only [Option.some.injEq, Prod.mk.injEq] at h
      generalize hd : rawDecode t s = d at h
      cases d with
      | some q =>
        obtain ⟨v, e⟩ := q
        have := rawDecode_progress t s v e (by omega) hd
        simp only [Option.some.injEq, Prod.mk.injEq] at h
        obtain ⟨-, he⟩ := h
        omega
      | none =>
        simp only [Option.some.injEq, Prod.mk.injEq] at h
        generalize hf2 : findFrom t lbrace (s + 1) = f2 at h
        cases f2 with
        | none => simp at h
        | some p3 =>
          simp only [Option.some.injEq, Prod.mk.injEq] at h
          obtain ⟨-, hp3⟩ := h
          have := findIdxFrom_bounds lbrace (t.drop (s + 1)) (s + 1) p3 hf2
          omega

/-- The scanning loop itself, fuel-bounded: by `scanStep_progress`
every yielding step strictly advances `pos` while `pos < length`, so
`length + 1` iterations always reach the end. -/
def scanLoopAux (t : Str) : Nat → Nat → List Json
  | 0, _ => []
  | fuel + 1, pos =>
    match scanStep t pos with
    | none => []
    | some (cards, p2) => cards ++ scanLoopAux t fuel p2

def scanLoop (t : Str) (pos : Nat) : List Json :=
  scanLoopAux t (t.length + 1) pos

def isAsciiAlpha (c : Char) : Bool :=
  ('a' ≤ c && c ≤ 'z') || ('A' ≤ c && c ≤ 'Z')

/-- The two `re.sub` calls that strip a Markdown code fence (lines
293-297), applied when the stripped text starts with three backticks:
`^\x60\x60\x60[a-zA-Z]*\s*\n?` removes the fence opener together with the
following whitespace run, and the trailing-fence pattern removes a final
three-backtick run plus one preceding newline.  (The input reaching the
second substitution has no trailing whitespace, since the text was
stripped and the first substitution only removes a prefix.) -/
def stripFence (t : Str) : Str :=
  let t1 := ((t.drop 3).dropWhile isAsciiAlpha).dropWhile pyIsSpace
  if pyEndsWith t1 (strOf "```") then
    let t2 := t1.take (t1.length - 3)
    if pyEndsWith t2 (strOf "\n") then t2.take (t2.length - 1) else t2
  else t1

/-- `robust_parse_objects(text)`. -/
def robustParseObjects (t : Str) : List Json :=
  let t1 := pyStrip t
  let t2 := if pyStartsWith t1 (strOf "```") then stripFence t1 else t1
  scanLoop t2 0

/-! ### call_lm_studio (document_processor.py lines 111-195)

The network is abstracted by the outcome of each attempt: a transport
failure (`urllib.error.URLError` / `socket.timeout` /
`http.client.IncompleteRead` / `ConnectionError`, carried here with the
already-formatted message), a non-200 status (raised as a plain
exception), or an open stream.  A stream is a list of received lines
together with the value of `stop_callback()` at the moment each line is
read. -/

/-- The decoded payload of a `data: ` line. -/
inductive Payload where
  | content (s : Str)
  | noContent
  | done
  | malformed
  deriving Repr, DecidableEq

/-- One line of the streaming response. -/
inductive RawLine where
  | data (p : Payload)
  | other
  | badBytes
  deriving Repr, DecidableEq

inductive AttemptResult where
  | netErr (msg : Str)
  | httpErr (msg : Str)
  | streamOk (stopF : Nat → Bool) (lines : List RawLine)

inductive CallError where
  | network (msg : Str)
  | http (msg : Str)
  | stopped
  deriving Repr, DecidableEq

/-- The streaming read loop (lines 146-171): each line is checked
against `stop_callback` before being parsed; `data: [DONE]` ends the
stream; malformed or non-`data:` lines are skipped; content fragments
accumulate. -/
def processStream (stopF : Nat → Bool) : Nat → Str → List RawLine → Except Unit Str
  | _, acc, [] => .ok acc
  | i, acc, line :: rest =>
    if stopF i then .error ()
    else
      match line with
      | .badBytes => processStream stopF (i + 1) acc rest
      | .other => processStream stopF (i + 1) acc rest
      | .data .done => .ok acc
      | .data .malformed => processStream stopF (i + 1) acc rest
      | .data .noContent => processStream stopF (i + 1) acc rest
      | .data (.content s) => processStream stopF (i + 1) (acc ++ s) rest

/-- The retry loop of `call_lm_studio` (`retries = 3`): network-level
failures sleep `2 ** attempt` seconds and retry unless this was the
last attempt; any other exception (bad status, `"Processing stopped by
user."`) propagates immediately; when the loop ends the last network
error is raised.  Returns the outcome together with the list of
performed sleeps. -/
def callAux (attempts : Nat → AttemptResult) :
    Nat → Nat → Option Str → List Nat → Except CallError Str × List Nat
  | _, 0, lastE, sleeps =>
    (match lastE with
     | some m => (.error (.network m), sleeps)
     | none =>
       (.error (.http (strOf "Unknown error occurred during API call (Retries exhausted).")), sleeps))
  | attempt, rem + 1, lastE, sleeps =>
    match attempts attempt with
    | .netErr m =>
      if rem > 0 then
        callAux attempts (attempt + 1) rem (some m) (sleeps ++ [2 ^ attempt])
      else
        callAux attempts (attempt + 1) rem (some m) sleeps
    | .httpErr m => (.error (.http m), sleeps)
    | .streamOk stopF lines =>
      match processStream stopF 0 [] lines with
      | .error _ => (.error .stopped, sleeps)
      | .ok s => (.ok s, sleeps)

/-- `call_lm_studio` with `retries = 3`: the second argument of
`callAux` counts the attempts still allowed (`retries - attempt`), so
`attempt < retries - 1` — sleep before retrying — is `rem > 0`. -/
def callLMStudio (attempts : Nat → AttemptResult) : Except CallError Str × List Nat :=
  callAux attempts 0 3 none []

/-! ### filter_and_process_cards (document_processor.py lines 432-564)

Python conversions used by the record cleaning: `str()` over parsed
JSON values (the repr of nested containers is approximated: strings are
always single-quoted and not re-escaped), truthiness, `str.split`.
A record whose `deck` value is not a string makes the Python function
raise `AttributeError` (`.lower()` on a non-string) once a non-empty
category list forces resolution; that failure is modelled by `none`,
as is `Counter` applied to unhashable deck values. -/

mutual

def pyRepr : Json → Str
  | .null => strOf "None"
  | .bool b => if b then strOf "True" else strOf "False"
  | .num n => strOf (toString n)
  | .str s => '\'' :: (s ++ ['\''])
  | .arr xs => '[' :: (pyReprItems xs ++ [']'])
  | .obj kvs => lbrace :: (pyReprKVs kvs ++ [rbrace])

def pyReprItems : List Json → Str
  | [] => []
  | [x] => pyRepr x
  | x :: rest => pyRepr x ++ strOf ", " ++ pyReprItems rest

def pyReprKVs : List (Str × Json) → Str
  | [] => []
  | [kv] => ('\'' :: (kv.1 ++ ['\''])) ++ strOf ": " ++ pyRepr kv.2
  | kv :: rest =>
    ('\'' :: (kv.1 ++ ['\''])) ++ strOf ": " ++ pyRepr kv.2 ++ strOf ", " ++ pyReprKVs rest

end

/-- Python `str(x)`. -/
def pyStr : Json → Str
  | .str s => s
  | v => pyRepr v

/-- Python truthiness of a parsed JSON value. -/
def pyTruthy : Json → Bool
  | .null => false
  | .bool b => b
  | .num n => decide (n ≠ 0)
  | .str s => !s.isEmpty
  | .arr xs => !xs.isEmpty
  | .obj kvs => !kvs.isEmpty

/-- `d_name.split(',')` (keeps empty pieces). -/
def splitCommaGo (accRev : Str) : List Char → List Str
  | [] => [accRev.reverse]
  | c :: rest =>
    if c = ',' then accRev.reverse :: splitCommaGo [] rest
    else splitCommaGo (c :: accRev) rest

def splitComma (l : Str) : List Str := splitCommaGo [] l

/-- `part.split()` — whitespace-separated words, no empties. -/
def pyWordsGo (accRev : Str) : List Char → List Str
  | [] => if accRev = [] then [] else [accRev.reverse]
  | c :: rest =>
    if pyIsSpace c then
      if accRev = [] then pyWordsGo [] rest else accRev.reverse :: pyWordsGo [] rest
    else pyWordsGo (c :: accRev) rest

def pyWords (l : Str) : List Str := pyWordsGo [] l

/-- `" ".join(...)`. -/
def joinSpace : List Str → Str
  | [] => []
  | [x] => x
  | x :: rest => x ++ ' ' :: joinSpace rest

/-- A pre-split deck name component, as stored in `parts_data`. -/
structure DeckPart where
  text : Str
  words : List Str
  deriving Repr, DecidableEq

/-- The `parts_data` pre-computation (both in `score_deck_raw` and the
`processed_decks` setup). -/
def mkPartsData (dname : Str) : List DeckPart :=
  (splitComma dname).filterMap fun p =>
    let part := pyLower (pyStrip p)
    if part = [] then none
    else some ⟨part, (pyWords part).filter (fun w => w.length > 3)⟩

/-- `score_deck_parts`.  The Python score is a float built from weights
3, 1, 1.5 and 0.5 per matched character; it is represented here doubled
(weights 6, 2, 3, 1), which preserves every comparison performed on
scores. -/
def scoreDeckParts (partsData : List DeckPart) (qTxt aTxt : Str) : Nat :=
  partsData.foldl
    (fun score pd =>
      if strContains qTxt pd.text then score + 6 * pd.text.length
      else if strContains aTxt pd.text then score + 2 * pd.text.length
      else
        score +
          pd.words.foldl
            (fun s w =>
              if strContains qTxt w then s + 3 * w.length
              else if strContains aTxt w then s + 1 * w.length
              else s)
            0)
    0

/-- `score_deck_raw` (on-the-fly scoring of the current deck). -/
def scoreDeckRaw (dname qTxt aTxt : Str) : Nat :=
  scoreDeckParts (mkPartsData dname) qTxt aTxt

structure ProcessedDeck where
  name : Str
  parts : List DeckPart
  deriving Repr, DecidableEq

def processedDecksOf (dns : List Str) (smart : Bool) : List ProcessedDeck :=
  if smart && !dns.isEmpty then dns.map (fun d => ⟨d, mkPartsData d⟩) else []

/-- A cleaned card.  `question`/`answer` always hold the coerced
stripped text; `deck` and `quote` carry whatever JSON value survived. -/
structure Card where
  question : Str
  answer : Str
  deck : Json
  quote : Json
  deriving Repr, DecidableEq

/-- A `processed_entries` element: the card plus its match score. -/
structure Entry where
  card : Card
  score : Nat
  deriving Repr, DecidableEq

/-- `item.get('question') or item.get('Question')` (Python `or` takes
the second operand when the first is falsy or missing). -/
def getQField (kvs : List (Str × Json)) (k1 k2 : Str) : Option Json :=
  match dictGet kvs k1 with
  | some v => if pyTruthy v then some v else dictGet kvs k2
  | none => dictGet kvs k2

/-- List-valued fields become space-joined text; everything else goes
through `str()`; the result is stripped. -/
def coerceText : Json → Str
  | .arr xs => pyStrip (joinSpace (xs.map pyStr))
  | .null => pyStrip (pyStr .null)
  | .bool b => pyStrip (pyStr (.bool b))
  | .num n => pyStrip (pyStr (.num n))
  | .str t => pyStrip (pyStr (.str t))
  | .obj kvs => pyStrip (pyStr (.obj kvs))

def yesNoExact : List Str :=
  [strOf "evet", strOf "evet.", strOf "hayır", strOf "hayır.",
   strOf "yes", strOf "yes.", strOf "no", strOf "no."]

def yesNoComma : List Str :=
  [strOf "evet,", strOf "hayır,", strOf "yes,", strOf "no,"]

/-- The strict yes/no answer filter (lines 495-500). -/
def isYesNoAnswer (aText : Str) : Bool :=
  let aLower := pyStrip (pyLower aText)
  yesNoExact.any (fun s => decide (s = aLower)) ||
  yesNoComma.any (fun p => pyStartsWith aLower p)

/-- `deck not in deck_names` (negated): Python `in` compares with `==`,
which is false between a non-string and a string. -/
def deckMem (deck : Json) (dns : List Str) : Bool :=
  match deck with
  | .str s => dns.any (fun d => decide (d = s))
  | .null => false
  | .bool _ => false
  | .num _ => false
  | .arr _ => false
  | .obj _ => false

/-- Steps 1-3 of the deck constraint enforcement (lines 508-518);
`none` models the `AttributeError` raised by `.lower()` on a
non-string deck value. -/
def resolveDeck (dns : List Str) (deck : Json) : Option Json :=
  match deck with
  | .str dstr =>
    match dns.find? (fun d => decide (pyLower d = pyLower dstr)) with
    | some d => some (.str d)
    | none =>
      match dns.find? (fun d => strContains dstr d) with
      | some d => some (.str d)
      | none =>
        if dns.any (fun d => decide (d = strOf "Default")) then
          some (.str (strOf "Default"))
        else
          match dns with
          | [] => some (.str (strOf "Default"))
          | d0 :: _ => some (.str d0)
  | .null => none
  | .bool _ => none
  | .num _ => none
  | .arr _ => none
  | .obj _ => none

/-- Step 4, smart content-based correction (lines 521-541): score the
current deck on the fly, find the best pre-processed deck
(`best_match_score` starts at `-1`), and switch only when the best
score is positive, strictly better, and the best name truthy. -/
def smartCorrect (processedDecks : List ProcessedDeck) (deck : Json)
    (ql al : Str) : Option (Json × Nat) :=
  match deck with
  | .str dstr =>
    let currentScore := scoreDeckRaw dstr ql al
    let best := processedDecks.foldl
      (fun (b : Option Str × Int) pd =>
        let s : Int := scoreDeckParts pd.parts ql al
        if s > b.2 then (some pd.name, s) else b)
      (none, -1)
    match best.1 with
    | some bname =>
      if !bname.isEmpty && decide (best.2 > 0) && decide (best.2 > (currentScore : Int)) then
        some (.str bname, best.2.toNat)
      else some (.str dstr, currentScore)
    | none => some (.str dstr, currentScore)
  | .null => none
  | .bool _ => none
  | .num _ => none
  | .arr _ => none
  | .obj _ => none

/-- The per-record body of the `for item in raw_data_list` loop.
`none` = exception escaping the whole call, `some none` = record
skipped, `some (some e)` = entry appended. -/
def processItem (dns : List Str) (processedDecks : List ProcessedDeck)
    (smart fyn : Bool) (item : Json) : Option (Option Entry) :=
  match item with
  | .obj kvs =>
    match getQField kvs (strOf "question") (strOf "Question") with
    | none => some none
    | some qval =>
      if !pyTruthy qval then some none
      else
        match getQField kvs (strOf "answer") (strOf "Answer") with
        | none => some none
        | some aval =>
          if !pyTruthy aval then some none
          else
            let qText := coerceText qval
            let aText := coerceText aval
            if qText.isEmpty || aText.isEmpty then some none
            else if fyn && isYesNoAnswer aText then some none
            else
              let deck0 := (dictGet kvs (strOf "deck")).getD (Json.str (strOf "Default"))
              let quote := (dictGet kvs (strOf "quote")).getD (Json.str [])
              let deck1opt :=
                if !dns.isEmpty && !deckMem deck0 dns then resolveDeck dns deck0
                else some deck0
              match deck1opt with
              | none => none
              | some deck1 =>
                if smart && !dns.isEmpty then
                  match smartCorrect processedDecks deck1 (pyLower qText) (pyLower aText) with
                  | none => none
                  | some (deck2, score) =>
                    some (some ⟨⟨qText, aText, deck2, quote⟩, score⟩)
                else some (some ⟨⟨qText, aText, deck1, quote⟩, 0⟩)
  | .null => some none
  | .bool _ => some none
  | .num _ => some none
  | .str _ => some none
  | .arr _ => some none

def phase1Aux (dns : List Str) (pd : List ProcessedDeck) (smart fyn : Bool) :
    List Json → Option (List Entry)
  | [] => some []
  | item :: rest =>
    match processItem dns pd smart fyn item with
    | none => none
    | some r =>
      match phase1Aux dns pd smart fyn rest with
      | none => none
      | some es =>
        some (match r with
              | none => es
              | some e => e :: es)

/-- The record-cleaning loop producing `processed_entries`. -/
def phase1 (dns : List Str) (smart fyn : Bool) (raws : List Json) :
    Option (List Entry) :=
  phase1Aux dns (processedDecksOf dns smart) smart fyn raws

/-- `Counter` raises on unhashable values (lists, dicts). -/
def isUnhashable : Json → Bool
  | .arr _ => true
  | .obj _ => true
  | .null => false
  | .bool _ => false
  | .num _ => false
  | .str _ => false

/-- Distinct values in first-occurrence order (the insertion order of
a `Counter`).  Fuel-bounded (each step consumes the head, so the input
length suffices). -/
def firstOccsAux : Nat → List Json → List Json
  | 0, _ => []
  | _, [] => []
  | fuel + 1, x :: xs => x :: firstOccsAux fuel (xs.filter (fun y => decide (y ≠ x)))

def firstOccs (l : List Json) : List Json := firstOccsAux l.length l

def countOcc (l : List Json) (x : Json) : Nat :=
  (l.filter (fun y => decide (y = x))).length

/-- `Counter(l).most_common(1)[0][0]`: the most frequent value, ties
broken towards the first-inserted one. -/
def counterMostCommon (l : List Json) : Option Json :=
  (firstOccs l).foldl
    (fun b x =>
      match b with
      | none => some x
      | some bx => if countOcc l x > countOcc l bx then some x else b)
    none

/-- `if dominant_deck:` guard plus the reassignment of score-0 entries. -/
def applyDominant (dom : Json) (entries : List Entry) : List Entry :=
  if pyTruthy dom then
    entries.map (fun e =>
      if e.score = 0 then ⟨{ e.card with deck := dom }, e.score⟩ else e)
  else entries

/-- Step 5, the contextual majority vote (lines 547-562). -/
def majorityPass (smart : Bool) (entries : List Entry) : Option (List Entry) :=
  if smart && !entries.isEmpty then
    let highConf := (entries.filter (fun e => e.score > 0)).map (fun e => e.card.deck)
    if !highConf.isEmpty then
      if highConf.any isUnhashable then none
      else
        match counterMostCommon highConf with
        | some dom => some (applyDominant dom entries)
        | none => some entries
    else
      let allDecks := entries.map (fun e => e.card.deck)
      if allDecks.any isUnhashable then none
      else
        match counterMostCommon allDecks with
        | some dom => some (applyDominant dom entries)
        | none => some entries
  else some entries

/-- `filter_and_process_cards(raw_data_list, deck_names,
smart_deck_match, filter_yes_no)`. -/
def filterAndProcessCards (raws : List Json) (dns : List Str)
    (smart fyn : Bool) : Option (List Card) :=
  match phase1 dns smart fyn raws with
  | none => none
  | some entries =>
    match majorityPass smart entries with
    | none => none
    | some entries2 => some (entries2.map (fun e => e.card))

/-! ### refine_generated_cards (document_processor.py lines 345-430)

The refinement's model call is abstracted by its outcome (the
accumulated response text, or the error `call_lm_studio` raised —
including the cancellation exception).  Everything inside the `try`
block that can raise (the call itself, or an `AttributeError` from a
non-string field of a parsed record) makes the function fall back to
the original card batch. -/

/-- A filtered card as the dict passed back into parsing/filtering. -/
def cardToJson (c : Card) : Json :=
  .obj [(strOf "question", .str c.question), (strOf "answer", .str c.answer),
        (strOf "deck", c.deck), (strOf "quote", c.quote)]

/-- `r_card.get(key, '')` followed by `.strip().lower()` requires a
string; a non-string value raises (modelled as `none`). -/
def getStrField (kvs : List (Str × Json)) (k : Str) : Option Str :=
  match dictGet kvs k with
  | none => some []
  | some (.str s) => some s
  | some _ => none

/-- The fuzzy quote lookup: the first map entry whose key is longer
than 10 characters and overlaps the refined text in either direction. -/
def findFuzzy (m : List (Str × Json)) (rtext : Str) : Option Json :=
  match m with
  | [] => none
  | (k, v) :: rest =>
    if k.length > 10 && (strContains rtext k || strContains k rtext) then some v
    else findFuzzy rest rtext

/-- Quote restoration for one refined record (lines 397-421). -/
def restoreQuote (qm am : List (Str × Json)) (rc : Json) : Option Json :=
  match rc with
  | .obj kvs =>
    if pyTruthy ((dictGet kvs (strOf "quote")).getD Json.null) then some rc
    else
      match getStrField kvs (strOf "question") with
      | none => none
      | some qs =>
        match getStrField kvs (strOf "answer") with
        | none => none
        | some as0 =>
          let rq := pyLower (pyStrip qs)
          let ra := pyLower (pyStrip as0)
          match dictGet qm rq with
          | some quote => some (.obj (dictInsert kvs (strOf "quote") quote))
          | none =>
            match dictGet am ra with
            | some quote => some (.obj (dictInsert kvs (strOf "quote") quote))
            | none =>
              match findFuzzy qm rq with
              | some quote => some (.obj (dictInsert kvs (strOf "quote") quote))
              | none =>
                match findFuzzy am ra with
                | some quote => some (.obj (dictInsert kvs (strOf "quote") quote))
                | none => some rc
  | _ => none

def restoreAll (qm am : List (Str × Json)) : List Json → Option (List Json)
  | [] => some []
  | rc :: rest =>
    match restoreQuote qm am rc with
    | none => none
    | some rc2 =>
      match restoreAll qm am rest with
      | none => none
      | some rest2 => some (rc2 :: rest2)

/-- `refine_generated_cards(cards, ...)`, with the model call's outcome
as an argument.  Any failure — the call raising (network exhaustion,
cancellation) or the restoration raising — is absorbed: the original
cards are returned.  An empty parse also falls back to the originals. -/
def refineGeneratedCards (cards : List Card)
    (callResult : Except CallError Str) : List Json :=
  if cards.isEmpty then []
  else
    match callResult with
    | .error _ => cards.map cardToJson
    | .ok resp =>
      let refined := robustParseObjects resp
      let qm := mkDict (cards.map fun c => (pyLower (pyStrip c.question), c.quote))
      let am := mkDict (cards.map fun c => (pyLower (pyStrip c.answer), c.quote))
      match restoreAll qm am refined with
      | none => cards.map cardToJson
      | some refined2 =>
        if refined2.isEmpty then cards.map cardToJson
        else refined2

/-! ### CardValidator.validate (pipeline_utils.py, min_len=10, max_len=500) -/

def validateCard (c : Card) : Bool :=
  let q := pyStrip c.question
  let a := pyStrip c.answer
  if q.isEmpty || a.isEmpty then false
  else if q.length < 10 then false
  else if a.length < 3 then false
  else if q.length > 500 || a.length > 1000 then false
  else if decide (pyLower q = pyLower a) then false
  else true

/-! ### generate_qa_pairs (document_processor.py lines 655-881)

The environment collects every run-external influence: the two
reachability probes, `os.cpu_count()`, the chunk-index-to-response
mapping (claim C9's notion of a fixed model behaviour; the prompt text
the model actually receives is absorbed by this mapping), the outcome
of each chunk's refinement call, the completion order `as_completed`
yields when several workers run, and the permutation `random.shuffle`
would apply to the deck list.  Logging callbacks, statistics and the
failure logger only record information and are not modelled; the
cancellation probe is modelled as never firing at orchestrator level
(its in-stream behaviour is modelled in `callLMStudio`).  The result
carries the produced cards plus the list of chunk indices dispatched to
the model. -/

structure RunConfig where
  deckNames : List Str
  filterYesNo : Bool
  smartDeckMatch : Bool
  aiRefinement : Bool
  deterministicMode : Bool
  concurrency : Nat
  cardDensity : Str
  contextWindow : Nat

structure RunEnv where
  modelsOk : Bool
  socketOk : Bool
  cpuCount : Nat
  responses : Nat → Str
  refResponses : Nat → Except CallError Str
  schedule : List Nat
  shuffleEff : List Str → List Str

/-- `check_llm_server`: the models-listing probe, else the raw TCP
connect, else `ConnectionError`. -/
def checkLLMServer (modelsOk socketOk : Bool) : Except Str Unit :=
  if modelsOk then .ok ()
  else if socketOk then .ok ()
  else .error (strOf "Could not connect to LLM server. Is it running?")

/-- The `CHUNK_SIZE` computation (lines 738-757); the float products
`available * 1.2 * density_factor` are computed in exact rational
arithmetic. -/
def chunkSizeOf (contextWindow : Nat) (density : Str) : Nat :=
  let available := if contextWindow - 2500 < 1000 then 1000 else contextWindow - 2500
  if density = strOf "High" then available * 12 / 40
  else if density = strOf "Medium" then available * 96 / 100
  else available * 12 / 10

/-- `_process_chunk_task` for chunk `i`: parse the response, filter,
optionally refine and re-filter; any exception makes the chunk
contribute no cards. -/
def processChunkTask (cfg : RunConfig) (env : RunEnv) (i : Nat) : List Card :=
  let data := robustParseObjects (env.responses i)
  match filterAndProcessCards data cfg.deckNames cfg.smartDeckMatch cfg.filterYesNo with
  | none => []
  | some temp =>
    if cfg.aiRefinement && !temp.isEmpty then
      let refinedRaw := refineGeneratedCards temp (env.refResponses i)
      match filterAndProcessCards refinedRaw cfg.deckNames cfg.smartDeckMatch cfg.filterYesNo with
      | none => []
      | some cs => cs
    else temp

/-- The aggregation body for one completed chunk: validate each card,
then deduplicate against the global seen-question set. -/
def aggChunk (st : List Str × List Card) (cards : List Card) :
    List Str × List Card :=
  cards.foldl
    (fun st2 c =>
      if validateCard c then
        if st2.1.any (fun q => decide (q = c.question)) then st2
        else (st2.1 ++ [c.question], st2.2 ++ [c])
      else st2)
    st

/-- The `as_completed` consumption loop, in the given completion order. -/
def aggregate (tasks : Nat → List Card) (order : List Nat) : List Card :=
  (order.foldl (fun st i => aggChunk st (tasks i)) ([], [])).2

/-- `generate_qa_pairs`. -/
def generateQAPairs (text : Str) (cfg : RunConfig) (env : RunEnv) :
    Except Str (List Card × List Nat) :=
  match checkLLMServer env.modelsOk env.socketOk with
  | .error _ => .ok ([], [])
  | .ok _ =>
    let targetDecks :=
      if cfg.smartDeckMatch && !cfg.deterministicMode then env.shuffleEff cfg.deckNames
      else cfg.deckNames
    let _ := targetDecks
    let chunks := smartChunkText text (chunkSizeOf cfg.contextWindow cfg.cardDensity) 100
    let n := chunks.length
    if n > 500 then
      .error (strOf ("Too many chunks (" ++ toString n ++
        "). Max allowed is 500. Try a smaller file or different density."))
    else
      let maxSafe := max 1 env.cpuCount
      let conc0 := if cfg.concurrency > maxSafe then maxSafe else cfg.concurrency
      let conc := if cfg.deterministicMode then 1 else conc0
      let order := if conc = 1 then List.range n else env.schedule
      .ok (aggregate (fun i => processChunkTask cfg env i) order, List.range n)

/-! ## Supporting lemmas for the chunker -/

theorem eraseWs_append (a b : Str) : eraseWs (a ++ b) = eraseWs a ++ eraseWs b :=
  List.filter_append a b

theorem eraseWs_cons_space {c : Char} (h : pyIsSpace c = true) (l : Str) :
    eraseWs (c :: l) = eraseWs l := by
  simp [eraseWs, List.filter, h]

theorem eraseWs_cons_keep {c : Char} (h : pyIsSpace c = false) (l : Str) :
    eraseWs (c :: l) = c :: eraseWs l := by
  simp [eraseWs, List.filter, h]

theorem concatChunks_append (a b : List Str) :
    concatChunks (a ++ b) = concatChunks a ++ concatChunks b :=
  List.flatten_append a b

theorem concatChunks_cons (a : Str) (b : List Str) :
    concatChunks (a :: b) = a ++ concatChunks b := by
  simp [concatChunks]

theorem pySplitlinesGo_concat : ∀ (l : List Char) (accRev : Str),
    concatChunks (pySplitlinesGo accRev l) = accRev.reverse ++ l
  | [], accRev => by
    rw [pySplitlinesGo]
    split_ifs with h
    · simp [h, concatChunks]
    · simp [concatChunks]
  | [c], accRev => by
    rw [pySplitlinesGo]
    split_ifs with h1 h2
    · simp [concatChunks, h1]
    · have := pySplitlinesGo_concat [] []
      simp [concatChunks_cons, this]
    · have := pySplitlinesGo_concat [] (c :: accRev)
      simp [this]
  | c :: c2 :: rest2, accRev => by
    rw [pySplitlinesGo]
    split_ifs with h1 h2 h3
    · have := pySplitlinesGo_concat rest2 []
      simp [concatChunks_cons, this, h1, h2]
    · have := pySplitlinesGo_concat (c2 :: rest2) []
      simp [concatChunks_cons, this, h1]
    · have := pySplitlinesGo_concat (c2 :: rest2) []
      simp [concatChunks_cons, this]
    · have := pySplitlinesGo_concat (c2 :: rest2) (c :: accRev)
      simp [this]

theorem pySplitlines_concat (t : Str) : concatChunks (pySplitlines t) = t := by
  have := pySplitlinesGo_concat t []
  simpa [pySplitlines] using this

theorem hardSplitAux_concat (B : Nat) (hB : 1 ≤ B) : ∀ (fuel : Nat) (l : Str),
    l.length ≤ fuel → concatChunks (hardSplitAux B fuel l) = l := by
  intro fuel
  induction fuel with
  | zero =>
    intro l hl
    match l with
    | [] => simp [hardSplitAux, concatChunks]
  | succ fuel ih =>
    intro l hl
    match l with
    | [] => simp [hardSplitAux, concatChunks]
    | c :: rest =>
      rw [hardSplitAux]
      have hlen : ((c :: rest).drop B).length ≤ fuel := by
        simp only [List.length_drop, List.length_cons]
        simp only [List.length_cons] at hl
        omega
      rw [concatChunks_cons, ih _ hlen, List.take_append_drop]

theorem hardSplit_concat (B : Nat) (hB : 1 ≤ B) (l : Str) :
    concatChunks (hardSplit B l) = l :=
  hardSplitAux_concat B hB l.length l le_rfl

theorem hardSplitAux_le (B : Nat) : ∀ (fuel : Nat) (l : Str) (c : Str),
    c ∈ hardSplitAux B fuel l → c.length ≤ B := by
  intro fuel
  induction fuel with
  | zero => intro l c hc; simp [hardSplitAux] at hc
  | succ fuel ih =>
    intro l c hc
    match l with
    | [] => simp [hardSplitAux] at hc
    | x :: rest =>
      rw [hardSplitAux] at hc
      rcases List.mem_cons.mp hc with h | h
      · subst h
        simpa using List.length_take_le B (x :: rest)
      · exact ih _ _ h

theorem hardSplit_le (B : Nat) (l : Str) (c : Str) (hc : c ∈ hardSplit B l) :
    c.length ≤ B :=
  hardSplitAux_le B l.length l c hc

mutual

theorem sentGo_eraseWs : ∀ (l : List Char) (prev : Char) (accRev : Str),
    eraseWs (concatChunks (sentGo prev accRev l)) = eraseWs accRev.reverse ++ eraseWs l
  | [], prev, accRev => by
    simp [sentGo, concatChunks, eraseWs]
  | c :: rest, prev, accRev => by
    rw [sentGo]
    split_ifs with h
    · have hc : pyIsSpace c = true := by
        cases hpc : pyIsSpace c
        · simp [hpc] at h
        · rfl
      rw [concatChunks_cons, eraseWs_append, sentSep_eraseWs rest,
        eraseWs_cons_space hc]
    · have := sentGo_eraseWs rest c (c :: accRev)
      rw [this, List.reverse_cons, eraseWs_append]
      cases hpc : pyIsSpace c
      · rw [eraseWs_cons_keep hpc]
        simp [eraseWs, List.filter, hpc]
      · rw [eraseWs_cons_space hpc]
        simp [eraseWs, List.filter, hpc]

theorem sentSep_eraseWs : ∀ (l : List Char),
    eraseWs (concatChunks (sentSep l)) = eraseWs l
  | [] => by simp [sentSep, concatChunks, eraseWs]
  | c :: rest => by
    rw [sentSep]
    split_ifs with h
    · rw [sentSep_eraseWs rest, eraseWs_cons_space h]
    · have hpc : pyIsSpace c = false := by
        cases hx : pyIsSpace c
        · rfl
        · simp [hx] at h
      rw [sentGo_eraseWs rest c [c], eraseWs_cons_keep hpc]
      simp [eraseWs, List.filter, hpc]

end

theorem pySentSplit_eraseWs (p : Str) :
    eraseWs (concatChunks (pySentSplit p)) = eraseWs p := by
  have := sentGo_eraseWs p ' ' []
  simpa [pySentSplit, eraseWs] using this

theorem withSpacing_eraseWs : ∀ (ss : List Str),
    eraseWs (concatChunks (withSpacing ss)) = eraseWs (concatChunks ss)
  | [] => by simp [withSpacing]
  | [s] => by simp [withSpacing]
  | s :: s2 :: rest => by
    have ih := withSpacing_eraseWs (s2 :: rest)
    rw [withSpacing, concatChunks_cons, eraseWs_append, ih, concatChunks_cons,
      eraseWs_append, eraseWs_append]
    have hsp : eraseWs [' '] = [] := by simp [eraseWs, List.filter, pyIsSpace]
    rw [hsp]
    simp [concatChunks_cons, eraseWs_append]

/-- The total text held by a chunking state. -/
def stContent (st : CState) : Str := concatChunks st.chunks ++ st.cur

theorem flushIf_content (st : CState) : stContent (flushIf st) = stContent st := by
  rw [flushIf]
  split_ifs with h
  · rfl
  · simp [stContent, concatChunks_append, concatChunks, h]

theorem flushIf_cur (st : CState) : (flushIf st).cur = [] := by
  rw [flushIf]
  split_ifs with h
  · exact h
  · rfl

theorem flushIf_bound {B : Nat} {st : CState}
    (h : (∀ c ∈ st.chunks, c.length ≤ B) ∧ st.cur.length ≤ B) :
    ∀ c ∈ (flushIf st).chunks, c.length ≤ B := by
  rw [flushIf]
  split_ifs with hcur
  · exact h.1
  · intro c hc
    simp only [List.mem_append, List.mem_singleton] at hc
    rcases hc with hc | hc
    · exact h.1 c hc
    · subst hc; exact h.2

theorem stepSent_content (B : Nat) (hB : 1 ≤ B) (st : CState) (s : Str) :
    stContent (stepSent B st s) = stContent st ++ s := by
  rw [stepSent]
  split_ifs with h1 h2 h3
  · simp [h1]
  · simp only [stContent, concatChunks_append, flushIf_cur]
    rw [hardSplit_concat B hB]
    have := flushIf_content st
    simp only [stContent, flushIf_cur, List.append_nil] at this
    simp [this]
  · have := flushIf_content st
    simp only [stContent, flushIf_cur, List.append_nil] at this
    simp only [stContent, flushIf_cur, List.nil_append]
    rw [this]
  · simp [stContent]

theorem stepSent_bound (B : Nat) (st : CState) (s : Str)
    (h : (∀ c ∈ st.chunks, c.length ≤ B) ∧ st.cur.length ≤ B) :
    (∀ c ∈ (stepSent B st s).chunks, c.length ≤ B) ∧
      (stepSent B st s).cur.length ≤ B := by
  rw [stepSent]
  split_ifs with h1 h2 h3
  · exact h
  · constructor
    · show ∀ c ∈ (flushIf st).chunks ++ hardSplit B s, c.length ≤ B
      intro c hc
      rcases List.mem_append.mp hc with hc | hc
      · exact flushIf_bound h c hc
      · exact hardSplit_le B s c hc
    · show ((flushIf st).cur).length ≤ B
      rw [flushIf_cur]
      simp
  · constructor
    · show ∀ c ∈ (flushIf st).chunks, c.length ≤ B
      exact flushIf_bound h
    · show ((flushIf st).cur ++ s).length ≤ B
      rw [flushIf_cur]
      simp only [List.nil_append]
      omega
  · constructor
    · exact h.1
    · show (st.cur ++ s).length ≤ B
      simp only [List.length_append]
      omega

theorem sentFold_content (B : Nat) (hB : 1 ≤ B) : ∀ (ss : List Str) (st : CState),
    stContent (ss.foldl (stepSent B) st) = stContent st ++ concatChunks ss := by
  intro ss
  induction ss with
  | nil => intro st; simp [concatChunks]
  | cons s rest ih =>
    intro st
    rw [List.foldl_cons, ih, stepSent_content B hB, concatChunks_cons]
    simp

theorem sentFold_bound (B : Nat) : ∀ (ss : List Str) (st : CState),
    ((∀ c ∈ st.chunks, c.length ≤ B) ∧ st.cur.length ≤ B) →
    (∀ c ∈ (ss.foldl (stepSent B) st).chunks, c.length ≤ B) ∧
      (ss.foldl (stepSent B) st).cur.length ≤ B := by
  intro ss
  induction ss with
  | nil => intro st h; exact h
  | cons s rest ih =>
    intro st h
    rw [List.foldl_cons]
    exact ih _ (stepSent_bound B st s h)

theorem stepPara_eraseWs (B : Nat) (hB : 1 ≤ B) (st : CState) (p : Str) :
    eraseWs (stContent (stepPara B st p)) = eraseWs (stContent st) ++ eraseWs p := by
  rw [stepPara]
  split_ifs with h1 h2
  · simp [stContent, eraseWs_append]
  · have := flushIf_content st
    simp only [stContent, flushIf_cur, List.append_nil] at this
    simp only [stContent, flushIf_cur, List.nil_append]
    rw [this]
    simp [eraseWs_append]
  · rw [sentFold_content B hB]
    rw [eraseWs_append, withSpacing_eraseWs, pySentSplit_eraseWs, flushIf_content]

theorem stepPara_content_exact (B : Nat) (st : CState) (p : Str)
    (hp : p.length ≤ B) :
    stContent (stepPara B st p) = stContent st ++ p := by
  rw [stepPara]
  split_ifs with h1
  · simp [stContent]
  · have := flushIf_content st
    simp only [stContent, flushIf_cur, List.append_nil] at this
    simp only [stContent, flushIf_cur, List.nil_append]
    rw [this]

theorem stepPara_bound (B : Nat) (st : CState) (p : Str)
    (h : (∀ c ∈ st.chunks, c.length ≤ B) ∧ st.cur.length ≤ B) :
    (∀ c ∈ (stepPara B st p).chunks, c.length ≤ B) ∧
      (stepPara B st p).cur.length ≤ B := by
  rw [stepPara]
  split_ifs with h1 h2
  · refine ⟨h.1, ?_⟩
    show (st.cur ++ p).length ≤ B
    simp only [List.length_append]
    omega
  · constructor
    · show ∀ c ∈ (flushIf st).chunks, c.length ≤ B
      exact flushIf_bound h
    · show ((flushIf st).cur ++ p).length ≤ B
      rw [flushIf_cur]
      simpa using h2
  · exact sentFold_bound B _ _ ⟨flushIf_bound h, by rw [flushIf_cur]; simp⟩

theorem paraFold_eraseWs (B : Nat) (hB : 1 ≤ B) : ∀ (ps : List Str) (st : CState),
    eraseWs (stContent (ps.foldl (stepPara B) st)) =
      eraseWs (stContent st) ++ eraseWs (concatChunks ps) := by
  intro ps
  induction ps with
  | nil => intro st; simp [concatChunks, eraseWs]
  | cons p rest ih =>
    intro st
    rw [List.foldl_cons, ih, stepPara_eraseWs B hB, concatChunks_cons,
      eraseWs_append]
    simp

theorem paraFold_content_exact (B : Nat) : ∀ (ps : List Str) (st : CState),
    (∀ p ∈ ps, p.length ≤ B) →
    stContent (ps.foldl (stepPara B) st) = stContent st ++ concatChunks ps := by
  intro ps
  induction ps with
  | nil => intro st _; simp [concatChunks]
  | cons p rest ih =>
    intro st hp
    rw [List.foldl_cons, ih _ (fun q hq => hp q (List.mem_cons_of_mem p hq)),
      stepPara_content_exact B st p (hp p (List.mem_cons_self p rest)),
      concatChunks_cons]
    simp

theorem paraFold_bound (B : Nat) : ∀ (ps : List Str) (st : CState),
    ((∀ c ∈ st.chunks, c.length ≤ B) ∧ st.cur.length ≤ B) →
    (∀ c ∈ (ps.foldl (stepPara B) st).chunks, c.length ≤ B) ∧
      (ps.foldl (stepPara B) st).cur.length ≤ B := by
  intro ps
  induction ps with
  | nil => intro st h; exact h
  | cons p rest ih =>
    intro st h
    rw [List.foldl_cons]
    exact ih _ (stepPara_bound B st p h)

theorem mergeGo_concat (B minc : Nat) : ∀ (rest : List Str) (curM : Str),
    concatChunks (mergeGo B minc curM rest) = curM ++ concatChunks rest := by
  intro rest
  induction rest with
  | nil => intro curM; simp [mergeGo, concatChunks]
  | cons nxt rest2 ih =>
    intro curM
    rw [mergeGo]
    split_ifs with h
    · rw [ih, concatChunks_cons]
      simp
    · rw [concatChunks_cons, ih, concatChunks_cons]

theorem mergeGo_bound (B minc : Nat) : ∀ (rest : List Str) (curM : Str),
    curM.length ≤ B → (∀ c ∈ rest, c.length ≤ B) →
    ∀ c ∈ mergeGo B minc curM rest, c.length ≤ B := by
  intro rest
  induction rest with
  | nil =>
    intro curM hcur _ c hc
    simp only [mergeGo, List.mem_singleton] at hc
    subst hc; exact hcur
  | cons nxt rest2 ih =>
    intro curM hcur hrest c hc
    rw [mergeGo] at hc
    split_ifs at hc with h
    · exact ih _ (by simp only [List.length_append]; omega)
        (fun q hq => hrest q (List.mem_cons_of_mem nxt hq)) c hc
    · rcases List.mem_cons.mp hc with hc | hc
      · subst hc; exact hcur
      · exact ih _ (hrest nxt (List.mem_cons_self nxt rest2))
          (fun q hq => hrest q (List.mem_cons_of_mem nxt hq)) c hc

theorem mergeSmall_concat (B minc : Nat) : ∀ (chunks : List Str),
    concatChunks (mergeSmall B minc chunks) = concatChunks chunks := by
  intro chunks
  match chunks with
  | [] => rfl
  | c0 :: rest => rw [mergeSmall, mergeGo_concat, concatChunks_cons]

theorem mergeSmall_bound (B minc : Nat) (chunks : List Str)
    (h : ∀ c ∈ chunks, c.length ≤ B) :
    ∀ c ∈ mergeSmall B minc chunks, c.length ≤ B := by
  match chunks with
  | [] => intro c hc; simp [mergeSmall] at hc
  | c0 :: rest =>
    rw [mergeSmall]
    exact mergeGo_bound B minc rest c0 (h c0 (List.mem_cons_self c0 rest))
      (fun q hq => h q (List.mem_cons_of_mem c0 hq))

/-! ## Claims C2 and C3: the chunker -/

/-- Claim C2, counterexample: `smart_chunk_text("A.  B", 4)` loses one
of the two spaces between the sentences — the sentence-splitting regex
consumes the whitespace run and the loop restores a single space — so
concatenating the chunks does not reproduce the input. -/
theorem smart_chunk_whitespace_lost :
    concatChunks (smartChunkText (strOf "A.  B") 4 100) ≠ strOf "A.  B" := by
  decide

/-- Claim C2 (amended): for every budget `B ≥ 1`, concatenating the
chunks of `smart_chunk_text` preserves the input up to whitespace
normalisation at sentence-split points: the concatenation equals the
original text after deleting whitespace from both, and whenever every
paragraph fits the budget (so the sentence split never runs) the
concatenation equals the original text exactly. -/
theorem smart_chunk_content_preserved (t : Str) (B minc : Nat) (hB : 1 ≤ B) :
    eraseWs (concatChunks (smartChunkText t B minc)) = eraseWs t ∧
    ((∀ p ∈ pySplitlines t, p.length ≤ B) →
      concatChunks (smartChunkText t B minc) = t) := by
  have hdef : smartChunkText t B minc =
      mergeSmall B minc
        (flushIf ((pySplitlines t).foldl (stepPara B) ⟨[], []⟩)).chunks := rfl
  have key : concatChunks
      (flushIf ((pySplitlines t).foldl (stepPara B) ⟨[], []⟩)).chunks =
      stContent ((pySplitlines t).foldl (stepPara B) ⟨[], []⟩) := by
    calc concatChunks (flushIf ((pySplitlines t).foldl (stepPara B) ⟨[], []⟩)).chunks
        = concatChunks (flushIf ((pySplitlines t).foldl (stepPara B) ⟨[], []⟩)).chunks ++
            (flushIf ((pySplitlines t).foldl (stepPara B) ⟨[], []⟩)).cur := by
          rw [flushIf_cur]; simp
      _ = stContent (flushIf ((pySplitlines t).foldl (stepPara B) ⟨[], []⟩)) := rfl
      _ = stContent ((pySplitlines t).foldl (stepPara B) ⟨[], []⟩) :=
          flushIf_content _
  constructor
  · rw [hdef, mergeSmall_concat, key, paraFold_eraseWs B hB]
    have hinit : stContent (⟨[], []⟩ : CState) = [] := by
      simp [stContent, concatChunks]
    rw [hinit, pySplitlines_concat]
    simp [eraseWs]
  · intro hp
    rw [hdef, mergeSmall_concat, key, paraFold_content_exact B _ _ hp]
    have hinit : stContent (⟨[], []⟩ : CState) = [] := by
      simp [stContent, concatChunks]
    rw [hinit, pySplitlines_concat]
    simp

/-- Witness for C2: concrete runs of both conjuncts. -/
theorem smart_chunk_content_preserved_witness :
    eraseWs (concatChunks (smartChunkText (strOf "A.  B") 4 100)) =
      eraseWs (strOf "A.  B") ∧
    concatChunks (smartChunkText (strOf "hi there") 10 100) = strOf "hi there" :=
  ⟨(smart_chunk_content_preserved (strOf "A.  B") 4 100 (by decide)).1,
   (smart_chunk_content_preserved (strOf "hi there") 10 100 (by decide)).2 (by decide)⟩

/-- Claim C3 (confirmed, strengthened): for every budget `B ≥ 1`, every
chunk emitted by `smart_chunk_text` has length at most `B` — the
hard-split cuts oversized tokens at exactly the budget, so not even the
single-unsplittable-token exception arises. -/
theorem smart_chunk_length_le_budget (t : Str) (B minc : Nat) (_hB : 1 ≤ B) :
    ∀ c ∈ smartChunkText t B minc, c.length ≤ B := by
  have hinit : (∀ c ∈ ([] : List Str), c.length ≤ B) ∧
      ([] : Str).length ≤ B := ⟨by simp, by simp⟩
  have hfold := paraFold_bound B (pySplitlines t) ⟨[], []⟩ hinit
  exact mergeSmall_bound B minc _ (flushIf_bound hfold)

/-- Witness for C3 at a concrete input. -/
theorem smart_chunk_length_le_budget_witness : (strOf "hello").length ≤ 10 :=
  smart_chunk_length_le_budget (strOf "hello") 10 3 (by decide)
    (strOf "hello") (by decide)

/-! ## Claims C6 and C7: the object extractor -/

/-- Claim C6 (confirmed): the four ObjectExtractor reference cases.
A bare array of one record yields exactly that record; wrapping the
same text in a code fence yields the identical result; two bare objects
separated by a newline yield two records in encounter order; a wrapper
object around a nested record yields only the nested record, never the
wrapper. -/
theorem robust_parse_reference_cases :
    robustParseObjects (strOf "[\x7b\"question\":\"Q1\",\"answer\":\"A1\"\x7d]") =
      [Json.obj [(strOf "question", Json.str (strOf "Q1")),
                 (strOf "answer", Json.str (strOf "A1"))]] ∧
    robustParseObjects
        (strOf "```json\n[\x7b\"question\":\"Q1\",\"answer\":\"A1\"\x7d]\n```") =
      robustParseObjects (strOf "[\x7b\"question\":\"Q1\",\"answer\":\"A1\"\x7d]") ∧
    robustParseObjects
        (strOf "\x7b\"question\":\"Q3\",\"answer\":\"A3\"\x7d\n\x7b\"question\":\"Q4\",\"answer\":\"A4\"\x7d") =
      [Json.obj [(strOf "question", Json.str (strOf "Q3")),
                 (strOf "answer", Json.str (strOf "A3"))],
       Json.obj [(strOf "question", Json.str (strOf "Q4")),
                 (strOf "answer", Json.str (strOf "A4"))]] ∧
    robustParseObjects
        (strOf "\x7b\"cards\":[\x7b\"question\":\"Q1\",\"answer\":\"A1\"\x7d]\x7d") =
      [Json.obj [(strOf "question", Json.str (strOf "Q1")),
                 (strOf "answer", Json.str (strOf "A1"))]] :=
  ⟨by decide, by decide, by decide, by decide⟩

/-- Claim C7 (confirmed): every yielding iteration of the scanning loop
of `robust_parse_objects` strictly increases the scan position — past
the decoded span on success, to the next opening brace on failure — so
the loop makes monotonic forward progress. -/
theorem robust_parse_scan_progress (t : Str) (pos p2 : Nat) (cards : List Json)
    (h : scanStep t pos = some (cards, p2)) : pos < p2 :=
  (scanStep_progress t pos cards p2 h).1

/-- Witness for C7: one concrete scanning step. -/
theorem robust_parse_scan_progress_witness : (0 : Nat) < 2 :=
  robust_parse_scan_progress (strOf "\x7b\x7d") 0 2 [] (by decide)

/-! ## Claims C4 and C5: the model client -/

/-- Claim C4, counterexample: when every attempt fails at network
level, the sleeps actually performed are 1s and 2s — with three total
attempts there are only two between-attempt gaps, and a 4-second
backoff never occurs (the claimed sleep sequence 1s, 2s, 4s is not what
the code does). -/
theorem call_backoff_sleeps_1_2 :
    (callLMStudio (fun _ => AttemptResult.netErr (strOf "refused"))).2 = [1, 2] ∧
    (callLMStudio (fun _ => AttemptResult.netErr (strOf "refused"))).2 ≠ [1, 2, 4] :=
  ⟨by decide, by decide⟩

/-- Claim C4 (amended): network-level failures are retried up to 3
total attempts with exponential backoff sleeps of 1s and then 2s
between consecutive attempts (no sleep follows the final attempt, so a
4s backoff never happens); any other failure propagates immediately
without retry or sleep; exhausting the attempts surfaces the last
network error. -/
theorem call_retry_policy (attempts : Nat → AttemptResult)
    (m0 m1 m2 msg out : Str) (stopF : Nat → Bool) (lines : List RawLine) :
    (attempts 0 = .netErr m0 → attempts 1 = .netErr m1 → attempts 2 = .netErr m2 →
      callLMStudio attempts = (.error (.network m2), [1, 2])) ∧
    (attempts 0 = .httpErr msg →
      callLMStudio attempts = (.error (.http msg), [])) ∧
    (attempts 0 = .streamOk stopF lines → processStream stopF 0 [] lines = .ok out →
      callLMStudio attempts = (.ok out, [])) := by
  refine ⟨?_, ?_, ?_⟩
  · intro h0 h1 h2
    simp [callLMStudio, callAux, h0, h1, h2]
  · intro h0
    simp [callLMStudio, callAux, h0]
  · intro h0 hps
    simp [callLMStudio, callAux, h0, hps]

/-- Witness for C4 at concrete attempt outcomes. -/
theorem call_retry_policy_witness :
    callLMStudio (fun _ => AttemptResult.netErr (strOf "refused")) =
      (.error (.network (strOf "refused")), [1, 2]) ∧
    callLMStudio (fun _ => AttemptResult.httpErr (strOf "500")) =
      (.error (.http (strOf "500")), []) :=
  ⟨(call_retry_policy (fun _ => AttemptResult.netErr (strOf "refused"))
      (strOf "refused") (strOf "refused") (strOf "refused") (strOf "x") (strOf "x")
      (fun _ => false) []).1 rfl rfl rfl,
   (call_retry_policy (fun _ => AttemptResult.httpErr (strOf "500"))
      (strOf "x") (strOf "x") (strOf "x") (strOf "500") (strOf "x")
      (fun _ => false) []).2.1 rfl⟩

/-- Claim C5, counterexample: a cancellation observed mid-stream makes
`call_lm_studio` raise the "stopped by caller" condition without retry,
but the Refiner absorbs that exception — `refine_generated_cards`
returns the original card batch normally instead of propagating the
stop to its caller. -/
theorem refine_absorbs_stop :
    (callLMStudio (fun _ => AttemptResult.streamOk (fun _ => true)
        [RawLine.data (Payload.content (strOf "x"))])).1 =
      .error .stopped ∧
    refineGeneratedCards
        [⟨strOf "what is alpha", strOf "gamma", Json.str (strOf "D"),
          Json.str (strOf "q")⟩]
        ((callLMStudio (fun _ => AttemptResult.streamOk (fun _ => true)
          [RawLine.data (Payload.content (strOf "x"))])).1) =
      [cardToJson ⟨strOf "what is alpha", strOf "gamma", Json.str (strOf "D"),
        Json.str (strOf "q")⟩] :=
  ⟨rfl, rfl⟩

/-- Claim C5 (amended): a cancellation observed while the response
stream is being read aborts the call immediately with the
"stopped by caller" condition, performing no retry and no backoff
sleep, and `call_lm_studio` propagates it; the Refiner's second-pass
call, however, catches it like any other failure and falls back to the
original card batch instead of propagating it. -/
theorem stop_semantics (attempts : Nat → AttemptResult) (stopF : Nat → Bool)
    (line : RawLine) (rest : List RawLine) (cards : List Card) (e : CallError) :
    (attempts 0 = .streamOk stopF (line :: rest) → stopF 0 = true →
      callLMStudio attempts = (.error .stopped, [])) ∧
    (cards ≠ [] → refineGeneratedCards cards (.error e) = cards.map cardToJson) := by
  constructor
  · intro h0 hstop
    simp [callLMStudio, callAux, h0, processStream, hstop]
  · intro hne
    have hemp : cards.isEmpty = false := by
      cases cards
      · simp at hne
      · rfl
    simp [refineGeneratedCards, hemp]

/-! ## Supporting lemmas for the card filter (claims C8 and C10) -/

theorem dropWhile_idem (p : Char → Bool) : ∀ l : Str,
    (l.dropWhile p).dropWhile p = l.dropWhile p := by
  intro l
  induction l with
  | nil => simp
  | cons c rest ih =>
    rw [List.dropWhile]
    split
    · exact ih
    next hpc =>
      rw [List.dropWhile]
      simp only [hpc]

theorem dropWhile_prefix_fix (p : Char → Bool) : ∀ (m s : Str),
    m.dropWhile p = m → s <+: m → s.dropWhile p = s := by
  intro m s hm hs
  match s, m with
  | [], _ => simp
  | c :: s2, [] => exact absurd (List.prefix_nil.mp hs) (by simp)
  | c :: s2, m0 :: m2 =>
    have hc : c = m0 := by
      obtain ⟨t, ht⟩ := hs
      simp only [List.cons_append, List.cons.injEq] at ht
      exact ht.1
    subst hc
    have hpc : p c = false := by
      by_contra hpc
      rw [Bool.not_eq_false] at hpc
      rw [List.dropWhile_cons_of_pos hpc] at hm
      have := congrArg List.length hm
      have hle := dropWhile_len_le p m2
      simp only [List.length_cons] at this
      omega
    rw [List.dropWhile_cons_of_neg (by simp [hpc])]

theorem pyStrip_idem (l : Str) : pyStrip (pyStrip l) = pyStrip l := by
  set m := l.dropWhile pyIsSpace with hm
  have h1 : m.dropWhile pyIsSpace = m := dropWhile_idem pyIsSpace l
  have hstrip : pyStrip l = (m.reverse.dropWhile pyIsSpace).reverse := rfl
  have hpre : (m.reverse.dropWhile pyIsSpace).reverse <+: m := by
    have hsuf : m.reverse.dropWhile pyIsSpace <:+ m.reverse :=
      List.dropWhile_suffix pyIsSpace
    have := List.reverse_prefix.mpr (by simpa using hsuf)
    simpa using this
  have h2 : ((m.reverse.dropWhile pyIsSpace).reverse).dropWhile pyIsSpace =
      (m.reverse.dropWhile pyIsSpace).reverse :=
    dropWhile_prefix_fix pyIsSpace m _ h1 hpre
  rw [pyStrip, hstrip, h2]
  rw [List.reverse_reverse, dropWhile_idem pyIsSpace]

theorem coerceText_stripped (v : Json) : pyStrip (coerceText v) = coerceText v := by
  match v with
  | .arr xs => exact pyStrip_idem _
  | .null => exact pyStrip_idem _
  | .bool b => exact pyStrip_idem _
  | .num n => exact pyStrip_idem _
  | .str s => exact pyStrip_idem _
  | .obj kvs => exact pyStrip_idem _

theorem deckMem_mem {deck : Json} {dns : List Str} (h : deckMem deck dns = true) :
    deck ∈ dns.map Json.str := by
  match deck with
  | .str s =>
    simp only [deckMem, List.any_eq_true, decide_eq_true_eq] at h
    obtain ⟨d, hd, he⟩ := h
    subst he
    exact List.mem_map_of_mem Json.str hd
  | .null | .bool _ | .num _ | .arr _ | .obj _ => simp [deckMem] at h

theorem resolveDeck_mem {dns : List Str} (hne : dns ≠ []) {deck d1 : Json}
    (h : resolveDeck dns deck = some d1) : d1 ∈ dns.map Json.str := by
  match deck with
  | .null | .bool _ | .num _ | .arr _ | .obj _ => simp [resolveDeck] at h
  | .str dstr =>
    rw [resolveDeck.eq_def] at h
    simp only [Option.some.injEq] at h
    generalize hf1 : dns.find? (fun d => decide (pyLower d = pyLower dstr)) = f1 at h
    cases f1 with
    | some d =>
      simp only [Option.some.injEq] at h
      subst h
      exact List.mem_map_of_mem Json.str (List.mem_of_find?_eq_some hf1)
    | none =>
      generalize hf2 : dns.find? (fun d => strContains dstr d) = f2 at h
      cases f2 with
      | some d =>
        simp only [Option.some.injEq] at h
        subst h
        exact List.mem_map_of_mem Json.str (List.mem_of_find?_eq_some hf2)
      | none =>
        split_ifs at h with hdef
        · simp only [Option.some.injEq] at h
          subst h
          simp only [List.any_eq_true, decide_eq_true_eq] at hdef
          obtain ⟨d, hd, he⟩ := hdef
          subst he
          exact List.mem_map_of_mem Json.str hd
        · match dns, hne with
          | d0 :: rest, _ =>
            simp only [Option.some.injEq] at h
            subst h
            exact List.mem_map_of_mem Json.str (List.mem_cons_self d0 rest)

theorem foldBest_mem (P : Str → Prop) (ql al : Str) :
    ∀ (pds : List ProcessedDeck) (b : Option Str × Int),
    (∀ nm, b.1 = some nm → P nm) → (∀ pd ∈ pds, P pd.name) →
    ∀ nm,
      (pds.foldl
        (fun (b : Option Str × Int) pd =>
          let s : Int := scoreDeckParts pd.parts ql al
          if s > b.2 then (some pd.name, s) else b) b).1 = some nm → P nm := by
  intro pds
  induction pds with
  | nil => intro b hb _ nm h; exact hb nm h
  | cons pd rest ih =>
    intro b hb hmem nm h
    rw [List.foldl_cons] at h
    refine ih _ ?_ (fun q hq => hmem q (List.mem_cons_of_mem pd hq)) nm h
    intro nm2 h2
    dsimp only at h2
    split_ifs at h2 with hgt
    · simp only [Option.some.injEq] at h2
      subst h2
      exact hmem pd (List.mem_cons_self pd rest)
    · exact hb nm2 h2

theorem smartCorrect_mem {dns : List Str} {pds : List ProcessedDeck}
    {deck d2 : Json} {score : Nat} {ql al : Str}
    (hdeck : deck ∈ dns.map Json.str) (hpds : ∀ pd ∈ pds, pd.name ∈ dns)
    (h : smartCorrect pds deck ql al = some (d2, score)) :
    d2 ∈ dns.map Json.str := by
  match deck with
  | .null | .bool _ | .num _ | .arr _ | .obj _ => simp [smartCorrect] at h
  | .str dstr =>
    rw [smartCorrect] at h
    generalize hbest : (pds.foldl
      (fun (b : Option Str × Int) pd =>
        let s : Int := scoreDeckParts pd.parts ql al
        if s > b.2 then (some pd.name, s) else b) (none, -1)) = best at h
    cases hb1 : best.1 with
    | none =>
      rw [hb1] at h
      simp only [Option.some.injEq, Prod.mk.injEq] at h
      obtain ⟨he, -⟩ := h
      subst he
      exact hdeck
    | some bname =>
      rw [hb1] at h
      simp only [Option.some.injEq, Prod.mk.injEq] at h
      split_ifs at h with hc
      · simp only [Option.some.injEq, Prod.mk.injEq] at h
        obtain ⟨he, -⟩ := h
        subst he
        have : bname ∈ dns := by
          refine foldBest_mem (· ∈ dns) ql al pds (none, -1) ?_ hpds bname ?_
          · intro nm hnm; simp at hnm
          · rw [hbest, hb1]
        exact List.mem_map_of_mem Json.str this
      · simp only [Option.some.injEq, Prod.mk.injEq] at h
        obtain ⟨he, -⟩ := h
        subst he
        exact hdeck

theorem processedDecksOf_names (dns : List Str) (smart : Bool) :
    ∀ pd ∈ processedDecksOf dns smart, pd.name ∈ dns := by
  intro pd hpd
  rw [processedDecksOf] at hpd
  split_ifs at hpd with hc
  · obtain ⟨d, hd, he⟩ := List.mem_map.mp hpd
    subst he
    exact hd
  · simp at hpd

/-- The invariant established by one iteration of the cleaning loop:
an appended entry carries stripped non-empty question/answer text and a
deck drawn from the allowed list. -/
theorem processItem_entry {dns : List Str} {pd : List ProcessedDeck}
    {smart fyn : Bool} {item : Json} {e : Entry} (hne : dns ≠ [])
    (hpd : ∀ q ∈ pd, q.name ∈ dns)
    (h : processItem dns pd smart fyn item = some (some e)) :
    (pyStrip e.card.question = e.card.question ∧ e.card.question ≠ []) ∧
    (pyStrip e.card.answer = e.card.answer ∧ e.card.answer ≠ []) ∧
    e.card.deck ∈ dns.map Json.str := by
  have hie : dns.isEmpty = false := by
    cases dns with
    | nil => exact absurd rfl hne
    | cons a b => rfl
  match item with
  | .null => simp [processItem] at h
  | .bool _ => simp [processItem] at h
  | .num _ => simp [processItem] at h
  | .str _ => simp [processItem] at h
  | .arr _ => simp [processItem] at h
  | .obj kvs =>
    rw [processItem] at h
    generalize hq : getQField kvs (strOf "question") (strOf "Question") = qv at h
    cases qv with
    | none => simp at h
    | some qval =>
      simp only [Option.some.injEq] at h
      generalize ha : getQField kvs (strOf "answer") (strOf "Answer") = av at h
      cases av with
      | none => split_ifs at h <;> simp at h
      | some aval =>
        simp only [Option.some.injEq] at h
        generalize hd : (if !dns.isEmpty &&
            !deckMem ((dictGet kvs (strOf "deck")).getD (Json.str (strOf "Default"))) dns then
            resolveDeck dns ((dictGet kvs (strOf "deck")).getD (Json.str (strOf "Default")))
          else some ((dictGet kvs (strOf "deck")).getD (Json.str (strOf "Default")))) = d1o at h
        cases d1o with
        | none => split_ifs at h <;> simp at h
        | some deck1 =>
          simp only [Option.some.injEq] at h
          have hdeck1 : deck1 ∈ dns.map Json.str := by
            split_ifs at hd with hc3
            · exact resolveDeck_mem hne hd
            · simp only [Option.some.injEq] at hd
              subst hd
              have hdm : deckMem ((dictGet kvs (strOf "deck")).getD
                  (Json.str (strOf "Default"))) dns = true := by
                by_contra hh
                rw [Bool.not_eq_true] at hh
                exact hc3 (by simp [hie, hh])
              exact deckMem_mem hdm
          generalize hs : smartCorrect pd deck1 (pyLower (coerceText qval))
              (pyLower (coerceText aval)) = sc at h
          cases sc with
          | none =>
            simp only [Option.some.injEq] at h
            split_ifs at h with h1 h2 h3 h4 h5
            all_goals try simp at h
            subst h
            have hq3 : ¬((coerceText qval).isEmpty ||
                (coerceText aval).isEmpty) = true := h3
            simp only [Bool.or_eq_true, List.isEmpty_iff, not_or] at hq3
            exact ⟨⟨coerceText_stripped qval, hq3.1⟩,
              ⟨coerceText_stripped aval, hq3.2⟩, hdeck1⟩
          | some p =>
            obtain ⟨deck2, score⟩ := p
            simp only [Option.some.injEq] at h
            split_ifs at h with h1 h2 h3 h4 h5
            all_goals try simp at h
            · -- smart branch taken: the entry carries deck2
              obtain rfl : (⟨⟨coerceText qval, coerceText aval, deck2,
                  (dictGet kvs (strOf "quote")).getD (Json.str [])⟩, score⟩ : Entry) = e := by
                simpa using h
              have hq3 : ¬((coerceText qval).isEmpty || (coerceText aval).isEmpty) = true := h3
              simp only [Bool.or_eq_true, List.isEmpty_iff, not_or] at hq3
              refine ⟨⟨coerceText_stripped qval, hq3.1⟩,
                ⟨coerceText_stripped aval, hq3.2⟩, ?_⟩
              exact smartCorrect_mem hdeck1 hpd hs
            · -- smart branch not taken: the entry carries deck1
              obtain rfl : (⟨⟨coerceText qval, coerceText aval, deck1,
                  (dictGet kvs (strOf "quote")).getD (Json.str [])⟩, 0⟩ : Entry) = e := by
                simpa using h
              have hq3 : ¬((coerceText qval).isEmpty || (coerceText aval).isEmpty) = true := h3
              simp only [Bool.or_eq_true, List.isEmpty_iff, not_or] at hq3
              exact ⟨⟨coerceText_stripped qval, hq3.1⟩,
                ⟨coerceText_stripped aval, hq3.2⟩, hdeck1⟩

/-- The cleaning loop preserves the per-entry invariant. -/
theorem phase1Aux_entries {dns : List Str} {pd : List ProcessedDeck}
    {smart fyn : Bool} (hne : dns ≠ []) (hpd : ∀ q ∈ pd, q.name ∈ dns) :
    ∀ (raws : List Json) (entries : List Entry),
    phase1Aux dns pd smart fyn raws = some entries →
    ∀ e ∈ entries,
      (pyStrip e.card.question = e.card.question ∧ e.card.question ≠ []) ∧
      (pyStrip e.card.answer = e.card.answer ∧ e.card.answer ≠ []) ∧
      e.card.deck ∈ dns.map Json.str := by
  intro raws
  induction raws with
  | nil =>
    intro entries h e he
    simp only [phase1Aux, Option.some.injEq] at h
    subst h
    simp at he
  | cons item rest ih =>
    intro entries h e he
    rw [phase1Aux] at h
    generalize hp : processItem dns pd smart fyn item = r at h
    cases r with
    | none => simp at h
    | some r0 =>
      simp only [Option.some.injEq] at h
      generalize hrec : phase1Aux dns pd smart fyn rest = es0 at h
      cases es0 with
      | none => simp at h
      | some es =>
        simp only [Option.some.injEq] at h
        cases r0 with
        | none =>
          subst h
          exact ih es hrec e he
        | some e0 =>
          subst h
          rcases List.mem_cons.mp he with he | he
          · subst he
            exact processItem_entry hne hpd hp
          · exact ih es hrec e he

theorem firstOccsAux_subset : ∀ (fuel : Nat) (l : List Json) (x : Json),
    x ∈ firstOccsAux fuel l → x ∈ l := by
  intro fuel
  induction fuel with
  | zero => intro l x h; simp [firstOccsAux] at h
  | succ fuel ih =>
    intro l x h
    match l with
    | [] => simp [firstOccsAux] at h
    | y :: ys =>
      rw [firstOccsAux] at h
      rcases List.mem_cons.mp h with h | h
      · rw [h]; exact List.mem_cons_self y ys
      · have := ih _ _ h
        exact List.mem_cons_of_mem y (List.mem_of_mem_filter this)

theorem counterMostCommon_mem {l : List Json} {d : Json}
    (h : counterMostCommon l = some d) : d ∈ l := by
  rw [counterMostCommon] at h
  have key : ∀ (keys : List Json) (b : Option Json),
      (∀ x, b = some x → x ∈ l) → (∀ k ∈ keys, k ∈ l) →
      ∀ d2, (keys.foldl
        (fun b x =>
          match b with
          | none => some x
          | some bx => if countOcc l x > countOcc l bx then some x else b) b) = some d2 →
      d2 ∈ l := by
    intro keys
    induction keys with
    | nil => intro b hb _ d2 h2; exact hb d2 h2
    | cons k rest ih =>
      intro b hb hkeys d2 h2
      rw [List.foldl_cons] at h2
      refine ih _ ?_ (fun q hq => hkeys q (List.mem_cons_of_mem k hq)) d2 h2
      intro x hx
      cases b with
      | none =>
        simp only [Option.some.injEq] at hx
        subst hx
        exact hkeys k (List.mem_cons_self k rest)
      | some bx =>
        simp only at hx
        split_ifs at hx
        · simp only [Option.some.injEq] at hx
          subst hx
          exact hkeys k (List.mem_cons_self k rest)
        · exact hb x hx
  exact key (firstOccs l) none (by simp) (fun k hk => firstOccsAux_subset _ _ _ hk) d h

/-- `applyDominant` only ever rewrites a deck to the dominant value and
leaves question/answer/score untouched. -/
theorem applyDominant_entries {dom : Json} {entries out : List Entry}
    (h : applyDominant dom entries = out) :
    ∀ e2 ∈ out, ∃ e ∈ entries,
      e2.card.question = e.card.question ∧ e2.card.answer = e.card.answer ∧
      (e2.card.deck = e.card.deck ∨ e2.card.deck = dom) := by
  intro e2 he2
  rw [applyDominant] at h
  split_ifs at h with htr
  · subst h
    obtain ⟨e, he, hmap⟩ := List.mem_map.mp he2
    refine ⟨e, he, ?_⟩
    split_ifs at hmap with hsc
    · subst hmap; exact ⟨rfl, rfl, Or.inr rfl⟩
    · subst hmap; exact ⟨rfl, rfl, Or.inl rfl⟩
  · subst h
    exact ⟨e2, he2, rfl, rfl, Or.inl rfl⟩

/-- The majority-vote pass preserves the per-entry invariant: any deck
it writes is the deck of some existing entry. -/
theorem majorityPass_inv {smart : Bool} {entries out : List Entry}
    (h : majorityPass smart entries = some out) :
    ∀ e2 ∈ out, ∃ e ∈ entries,
      e2.card.question = e.card.question ∧ e2.card.answer = e.card.answer ∧
      (e2.card.deck = e.card.deck ∨ ∃ e3 ∈ entries, e2.card.deck = e3.card.deck) := by
  intro e2 he2
  rw [majorityPass] at h
  simp only [] at h
  split_ifs at h with h1 h2 h3 h4
  · -- high-confidence counter
    split at h
    next x dom hcm =>
      simp only [Option.some.injEq] at h
      obtain ⟨e, he, hq, ha, hd⟩ := applyDominant_entries h e2 he2
      refine ⟨e, he, hq, ha, ?_⟩
      rcases hd with hd | hd
      · exact Or.inl hd
      · right
        have hm := counterMostCommon_mem hcm
        obtain ⟨e3, he3, hd3⟩ := List.mem_map.mp hm
        exact ⟨e3, List.mem_of_mem_filter he3, hd.trans hd3.symm⟩
    next x hcm =>
      simp only [Option.some.injEq] at h
      subst h
      exact ⟨e2, he2, rfl, rfl, Or.inl rfl⟩
  · -- all-decks counter
    split at h
    next x dom hcm =>
      simp only [Option.some.injEq] at h
      obtain ⟨e, he, hq, ha, hd⟩ := applyDominant_entries h e2 he2
      refine ⟨e, he, hq, ha, ?_⟩
      rcases hd with hd | hd
      · exact Or.inl hd
      · right
        have hm := counterMostCommon_mem hcm
        obtain ⟨e3, he3, hd3⟩ := List.mem_map.mp hm
        exact ⟨e3, he3, hd.trans hd3.symm⟩
    next x hcm =>
      simp only [Option.some.injEq] at h
      subst h
      exact ⟨e2, he2, rfl, rfl, Or.inl rfl⟩
  · simp only [Option.some.injEq] at h
    subst h
    exact ⟨e2, he2, rfl, rfl, Or.inl rfl⟩

/-- Claim C8: for every list of raw records and every non-empty allowed
deck list, every card returned by `filter_and_process_cards` has a
non-empty question and a non-empty answer after trimming (the stored
text is already stripped and not empty), and its deck is one of the
allowed names; both the smart-matching reassignment and the
majority-vote pass preserve this membership. -/
theorem filter_cards_invariant {raws : List Json} {dns : List Str}
    {smart fyn : Bool} {cards : List Card} (hne : dns ≠ [])
    (h : filterAndProcessCards raws dns smart fyn = some cards) :
    ∀ c ∈ cards,
      (pyStrip c.question = c.question ∧ c.question ≠ []) ∧
      (pyStrip c.answer = c.answer ∧ c.answer ≠ []) ∧
      c.deck ∈ dns.map Json.str := by
  intro c hc
  rw [filterAndProcessCards] at h
  generalize hp1 : phase1 dns smart fyn raws = p1 at h
  cases p1 with
  | none => simp at h
  | some entries =>
    simp only [] at h
    generalize hmp : majorityPass smart entries = p2 at h
    cases p2 with
    | none => simp at h
    | some entries2 =>
      simp only [Option.some.injEq] at h
      subst h
      obtain ⟨e2, he2, hce⟩ := List.mem_map.mp hc
      rw [phase1] at hp1
      have hinv := phase1Aux_entries hne (processedDecksOf_names dns smart)
        raws entries hp1
      obtain ⟨e, he, hq, ha, hd⟩ := majorityPass_inv hmp e2 he2
      obtain ⟨hq1, ha1, hd1⟩ := hinv e he
      subst hce
      refine ⟨?_, ?_, ?_⟩
      · rw [hq]
        exact hq1
      · rw [ha]
        exact ha1
      · rcases hd with hd | ⟨e3, he3, hd⟩
        · rw [hd]
          exact hd1
        · rw [hd]
          exact (hinv e3 he3).2.2

theorem filter_cards_invariant_witness :
    (([strOf "Default"] : List Str) ≠ []) ∧
    ∀ c ∈ [(⟨strOf "What is X?", strOf "It is Y",
        Json.str (strOf "Default"), Json.str []⟩ : Card)],
      (pyStrip c.question = c.question ∧ c.question ≠ []) ∧
      (pyStrip c.answer = c.answer ∧ c.answer ≠ []) ∧
      c.deck ∈ ([strOf "Default"] : List Str).map Json.str :=
  ⟨by decide,
   @filter_cards_invariant
     [Json.obj
       [(strOf "question", Json.str (strOf "What is X?")),
        (strOf "answer", Json.str (strOf "It is Y")),
        (strOf "deck", Json.str (strOf "Default"))]]
     [strOf "Default"] false false
     [⟨strOf "What is X?", strOf "It is Y",
        Json.str (strOf "Default"), Json.str []⟩]
     (by decide) (by rfl)⟩

/-- With an empty allowed deck list the smart-correction branch is dead
code (`smart and deck_names` is false), so every appended entry carries
the literal score `0`. -/
theorem processItem_score_zero {pd : List ProcessedDeck} {smart fyn : Bool}
    {item : Json} {e : Entry}
    (h : processItem [] pd smart fyn item = some (some e)) : e.score = 0 := by
  match item with
  | .null => simp [processItem] at h
  | .bool b => simp [processItem] at h
  | .num n => simp [processItem] at h
  | .str s => simp [processItem] at h
  | .arr a => simp [processItem] at h
  | .obj kvs =>
    rw [processItem] at h
    generalize hq : getQField kvs (strOf "question") (strOf "Question") = qv at h
    cases qv with
    | none => simp at h
    | some qval =>
      simp only [Option.some.injEq] at h
      generalize ha : getQField kvs (strOf "answer") (strOf "Answer") = av at h
      cases av with
      | none => split_ifs at h <;> simp at h
      | some aval =>
        simp only [Option.some.injEq] at h
        simp only [List.isEmpty_nil, Bool.not_true, Bool.and_false,
          Bool.false_and, Bool.false_eq_true, if_false] at h
        split_ifs at h with h1 h2 h3 h4
        all_goals try simp at h
        rw [← h]

/-- Over an empty allowed deck list the whole cleaned batch is
score-zero. -/
theorem phase1Aux_scores_zero {pd : List ProcessedDeck} {smart fyn : Bool} :
    ∀ (raws : List Json) (entries : List Entry),
    phase1Aux [] pd smart fyn raws = some entries →
    ∀ e ∈ entries, e.score = 0 := by
  intro raws
  induction raws with
  | nil =>
    intro entries h e he
    simp only [phase1Aux, Option.some.injEq] at h
    subst h
    simp at he
  | cons item rest ih =>
    intro entries h e he
    rw [phase1Aux] at h
    generalize hp : processItem [] pd smart fyn item = r at h
    cases r with
    | none => simp at h
    | some r0 =>
      simp only [Option.some.injEq] at h
      generalize hrec : phase1Aux [] pd smart fyn rest = es0 at h
      cases es0 with
      | none => simp at h
      | some es =>
        simp only [Option.some.injEq] at h
        cases r0 with
        | none =>
          subst h
          exact ih es hrec e he
        | some e0 =>
          subst h
          rcases List.mem_cons.mp he with he | he
          · subst he
            exact processItem_score_zero hp
          · exact ih es hrec e he

/-- Claim C10, counterexample: with smart matching enabled and an empty
allowed deck list, every record does score zero, yet the batch does NOT
always leave with a single deck: when the most frequent model-assigned
deck is the falsy empty string, the `if dominant_deck:` guard skips the
reassignment and the mixed decks survive. -/
theorem majority_vote_falsy_dominant_counterexample :
    (filterAndProcessCards
        [Json.obj [(strOf "question", Json.str (strOf "What is X?")),
                   (strOf "answer", Json.str (strOf "It is Y")),
                   (strOf "deck", Json.str [])],
         Json.obj [(strOf "question", Json.str (strOf "What is X?")),
                   (strOf "answer", Json.str (strOf "It is Y")),
                   (strOf "deck", Json.str [])],
         Json.obj [(strOf "question", Json.str (strOf "What is X?")),
                   (strOf "answer", Json.str (strOf "It is Y")),
                   (strOf "deck", Json.str (strOf "X"))]]
        [] true false).map (fun cs => cs.map (fun (c : Card) => c.deck)) =
      some [Json.str [], Json.str [], Json.str (strOf "X")] ∧
    (Json.str [] : Json) ≠ Json.str (strOf "X") :=
  ⟨rfl, by decide⟩

/-- Claim C10: with smart matching enabled and an empty allowed deck
list every cleaned record carries score zero, so the majority vote
reassigns the deck of every record in the batch to the most frequent
model-assigned deck name — provided that name is truthy (a falsy
dominant value such as the empty string skips the reassignment). -/
theorem majority_vote_reassigns_all {raws : List Json} {fyn : Bool}
    {entries : List Entry} {d : Json} {cards : List Card}
    (hp1 : phase1 [] true fyn raws = some entries)
    (hcm : counterMostCommon (entries.map (fun e => e.card.deck)) = some d)
    (htr : pyTruthy d = true)
    (h : filterAndProcessCards raws [] true fyn = some cards) :
    ∀ c ∈ cards, c.deck = d := by
  have hz : ∀ e ∈ entries, e.score = 0 := by
    have hp1a := hp1
    rw [phase1] at hp1a
    exact phase1Aux_scores_zero raws entries hp1a
  intro c hc
  rw [filterAndProcessCards, hp1] at h
  simp only [] at h
  cases entries with
  | nil => exact Option.noConfusion hcm
  | cons e0 es =>
    rw [majorityPass] at h
    have hfil : (e0 :: es).filter (fun e => e.score > 0) = [] := by
      rw [List.filter_eq_nil]
      intro a ha
      simp [hz a ha]
    rw [hfil] at h
    simp only [List.map_nil, List.isEmpty_cons, List.isEmpty_nil,
      Bool.not_true, Bool.not_false, Bool.and_true, Bool.true_and,
      Bool.false_eq_true, if_true, if_false] at h
    rw [hcm] at h
    split_ifs at h with hu
    simp only [Option.some.injEq] at h
    subst h
    obtain ⟨e2, he2, hc2⟩ := List.mem_map.mp hc
    rw [applyDominant, if_pos htr] at he2
    obtain ⟨e, he, he2e⟩ := List.mem_map.mp he2
    simp only [] at he2e
    rw [if_pos (hz e he)] at he2e
    subst he2e
    rw [← hc2]

theorem majority_vote_reassigns_all_witness :
    pyTruthy (Json.str (strOf "X")) = true ∧
    ∀ c ∈ [(⟨strOf "What is X?", strOf "It is Y",
            Json.str (strOf "X"), Json.str []⟩ : Card),
           ⟨strOf "What is X?", strOf "It is Y",
            Json.str (strOf "X"), Json.str []⟩,
           ⟨strOf "What is X?", strOf "It is Y",
            Json.str (strOf "X"), Json.str []⟩],
      c.deck = Json.str (strOf "X") :=
  ⟨by decide,
   @majority_vote_reassigns_all
     [Json.obj [(strOf "question", Json.str (strOf "What is X?")),
                (strOf "answer", Json.str (strOf "It is Y")),
                (strOf "deck", Json.str (strOf "X"))],
      Json.obj [(strOf "question", Json.str (strOf "What is X?")),
                (strOf "answer", Json.str (strOf "It is Y")),
                (strOf "deck", Json.str (strOf "X"))],
      Json.obj [(strOf "question", Json.str (strOf "What is X?")),
                (strOf "answer", Json.str (strOf "It is Y")),
                (strOf "deck", Json.str (strOf "Y"))]]
     false
     [⟨⟨strOf "What is X?", strOf "It is Y",
        Json.str (strOf "X"), Json.str []⟩, 0⟩,
      ⟨⟨strOf "What is X?", strOf "It is Y",
        Json.str (strOf "X"), Json.str []⟩, 0⟩,
      ⟨⟨strOf "What is X?", strOf "It is Y",
        Json.str (strOf "Y"), Json.str []⟩, 0⟩]
     (Json.str (strOf "X"))
     [⟨strOf "What is X?", strOf "It is Y",
       Json.str (strOf "X"), Json.str []⟩,
      ⟨strOf "What is X?", strOf "It is Y",
       Json.str (strOf "X"), Json.str []⟩,
      ⟨strOf "What is X?", strOf "It is Y",
       Json.str (strOf "X"), Json.str []⟩]
     (by rfl) (by rfl) (by rfl) (by rfl)⟩

/-! ## Claims C1 and C9: the orchestrator -/

/-- Claim C1, counterexample: with both reachability probes failing,
`generate_qa_pairs` returns the normal empty result (an ordinary empty
card list, no chunk dispatched) instead of surfacing the connectivity
failure to the caller; the identical input with a reachable server
dispatches chunk 0. -/
theorem generate_probe_failure_counterexample :
    generateQAPairs (strOf "hello")
        ⟨[], true, true, false, false, 1, strOf "Medium", 4096⟩
        ⟨false, false, 4, fun _ => strOf "", fun _ => Except.ok (strOf ""), [], id⟩ =
      Except.ok ([], []) ∧
    generateQAPairs (strOf "hello")
        ⟨[], true, true, false, false, 1, strOf "Medium", 4096⟩
        ⟨true, false, 4, fun _ => strOf "", fun _ => Except.ok (strOf ""), [], id⟩ =
      Except.ok ([], [0]) :=
  ⟨rfl, rfl⟩

/-- Claim C1 (amended): if both the models-listing probe and the raw
socket connect fail, the run aborts entirely — no chunk is dispatched
to the model — but the connectivity failure is only logged, not
surfaced: the function returns a normal empty card list. -/
theorem generate_probe_failure_aborts_empty (text : Str) (cfg : RunConfig)
    (env : RunEnv) (hm : env.modelsOk = false) (hs : env.socketOk = false) :
    generateQAPairs text cfg env = Except.ok ([], []) := by
  simp [generateQAPairs, checkLLMServer, hm, hs]

/-- Witness for C1's amended theorem. -/
theorem generate_probe_failure_aborts_empty_witness :
    generateQAPairs (strOf "hello")
        ⟨[], true, true, false, false, 1, strOf "Medium", 4096⟩
        ⟨false, false, 4, fun _ => strOf "", fun _ => Except.ok (strOf ""), [], id⟩ =
      Except.ok ([], []) :=
  generate_probe_failure_aborts_empty (strOf "hello")
    ⟨[], true, true, false, false, 1, strOf "Medium", 4096⟩
    ⟨false, false, 4, fun _ => strOf "", fun _ => Except.ok (strOf ""), [], id⟩
    rfl rfl

/-- Claim C9 (confirmed): with `deterministic_mode = true`, two runs
over the same text and the same chunk-to-response mapping are
identical whatever the machine's CPU count, the completion order the
worker pool would yield, the shuffle the RNG would apply, and the
requested concurrency (forced to 1); in particular each run equals the
canonical run that consumes chunks in index order. -/
theorem deterministic_mode_reproducible (text : Str) (dns : List Str)
    (fyn smart aiR : Bool) (conc1 conc2 : Nat) (density : Str) (cw : Nat)
    (resp : Nat → Str) (refR : Nat → Except CallError Str)
    (mOk sOk : Bool) (cpu1 cpu2 : Nat) (sch1 sch2 : List Nat)
    (sh1 sh2 : List Str → List Str) :
    generateQAPairs text ⟨dns, fyn, smart, aiR, true, conc1, density, cw⟩
        ⟨mOk, sOk, cpu1, resp, refR, sch1, sh1⟩ =
      generateQAPairs text ⟨dns, fyn, smart, aiR, true, conc2, density, cw⟩
        ⟨mOk, sOk, cpu2, resp, refR, sch2, sh2⟩ ∧
    generateQAPairs text ⟨dns, fyn, smart, aiR, true, conc1, density, cw⟩
        ⟨mOk, sOk, cpu1, resp, refR, sch1, sh1⟩ =
      generateQAPairs text ⟨dns, fyn, smart, aiR, true, 1, density, cw⟩
        ⟨mOk, sOk, 1, resp, refR,
         List.range (smartChunkText text (chunkSizeOf cw density) 100).length, id⟩ :=
  ⟨rfl, rfl⟩

/-- Witness for C5 at concrete inputs. -/
theorem stop_semantics_witness :
    callLMStudio (fun _ => AttemptResult.streamOk (fun _ => true)
        [RawLine.data (Payload.content (strOf "x"))]) =
      (.error .stopped, []) ∧
    refineGeneratedCards
        [⟨strOf "q text here", strOf "a text", Json.str (strOf "D"), Json.null⟩]
        (.error .stopped) =
      [cardToJson ⟨strOf "q text here", strOf "a text", Json.str (strOf "D"),
        Json.null⟩] :=
  ⟨(stop_semantics (fun _ => AttemptResult.streamOk (fun _ => true)
        [RawLine.data (Payload.content (strOf "x"))]) (fun _ => true)
        (RawLine.data (Payload.content (strOf "x"))) [] [] CallError.stopped).1
      rfl rfl,
   by
    have := (stop_semantics (fun _ => AttemptResult.netErr (strOf "x"))
        (fun _ => false) RawLine.other []
        [⟨strOf "q text here", strOf "a text", Json.str (strOf "D"), Json.null⟩]
        CallError.stopped).2 (by simp)
    simpa using this⟩

end NeuralDeck
